import Mathlib

/-!
# A verification development for `Shell.c`

The interpreter in `src/Shell.c` is embedded shallowly:

* character buffers are `List Char`; a C string is the run of characters
  before the first NUL of a buffer;
* `strtok` keeps a saved pointer into the buffer it scans; the buffer is kept
  split at that pointer (`TokState`), tokens are offsets from the start of the
  buffer, and the NUL bytes `strtok` writes are written into the model buffer;
* the history is the array of `HISTORY_SIZE` slots together with `count`;
* the pipe table of `execute_piped_commands` is the array `pipefds`, filled
  by the answers of the `pipe` system call.
-/

namespace Shell

/-! ## Constants -/

/-- Size of the line buffer: `#define MAX_CMD_LEN 1024`. -/
def MAX_CMD_LEN : Nat := 1024

/-- Size of the argument array: `#define MAX_ARGS 100`. -/
def MAX_ARGS : Nat := 100

/-- Capacity of the history: `#define HISTORY_SIZE 100`. -/
def HISTORY_SIZE : Nat := 100

/-- Capacity of `char *commands[10]` in `execute_piped_commands`. -/
def MAX_COMMANDS : Nat := 10

/-- The string terminator. -/
def NUL : Char := Char.ofNat 0

/-- Number of values of `size_t` (64-bit target). -/
def SIZE_MOD : Nat := 2 ^ 64

/-! ## C strings -/

/-- The C string starting at the beginning of a buffer: the characters before
the first NUL. -/
def cstr (s : List Char) : List Char :=
  s.takeWhile (fun c => c != NUL)

/-- The C string starting at offset `p` of a buffer. -/
def cstrAt (buf : List Char) (p : Nat) : List Char :=
  cstr (buf.drop p)

/-- The function `strlen(s)`. -/
def strlen (s : List Char) : Nat :=
  (cstr s).length

/-- The function `strcspn(s, reject)`: length of the initial part of the string free of the
characters of `reject`. -/
def strcspn (s : List Char) (reject : List Char) : Nat :=
  (s.takeWhile (fun c => c != NUL && !reject.contains c)).length

/-- The test `strchr(s, c) != NULL` for a character `c` other than NUL. -/
def strchr_found (s : List Char) (c : Char) : Bool :=
  (cstr s).contains c

/-- The test `strcmp(a, b) == 0` on two C strings given by their characters. -/
def streq (a b : List Char) : Bool :=
  a == b

/-! ## `strtok` -/

/-- A buffer split at the pointer `strtok` saved: `pre` are the bytes before
it, `suf` the bytes from it on. -/
structure TokState where
  pre : List Char
  suf : List Char
deriving DecidableEq, Repr

/-- The whole buffer of a `strtok` state. -/
def TokState.buf (st : TokState) : List Char :=
  st.pre ++ st.suf

/-- One call of `strtok` resuming at the saved pointer (`strtok(NULL, delim)`;
`strtok(s, delim)` is the call on the state `⟨[], s⟩`). Delimiters are
skipped; at the terminator the result is `NULL` (`none`). Otherwise the token
runs to the next delimiter, which is overwritten by NUL and stepped over, or
to the terminator, where the saved pointer stays. The token is returned as
its offset in the buffer. -/
def strtok (delim : List Char) (st : TokState) : TokState × Option Nat :=
  let skipped := st.suf.takeWhile (fun c => c != NUL && delim.contains c)
  let s1 := st.suf.dropWhile (fun c => c != NUL && delim.contains c)
  let start := st.pre ++ skipped
  match s1 with
  | [] => (⟨start, []⟩, none)
  | c :: r1 =>
    if c = NUL then (⟨start, c :: r1⟩, none)
    else
      let tok := (c :: r1).takeWhile (fun c => c != NUL && !delim.contains c)
      let s2 := (c :: r1).dropWhile (fun c => c != NUL && !delim.contains c)
      match s2 with
      | [] => (⟨start ++ tok, []⟩, some start.length)
      | d :: s3 =>
        if d = NUL then (⟨start ++ tok, d :: s3⟩, some start.length)
        else (⟨start ++ tok ++ [NUL], s3⟩, some start.length)

/-- The loop `while (token != NULL && room left) { slot[k++] = token;
token = strtok(NULL, delim); }`. The first argument is the number of
iterations still allowed; the result is the final `strtok` state, the token
pending when the loop stopped, and the offsets stored, in slot order. -/
def strtokLoop (delim : List Char) :
    Nat → TokState → Option Nat → List Nat → TokState × Option Nat × List Nat
  | 0, st, tok, acc => (st, tok, acc)
  | _ + 1, st, none, acc => (st, none, acc)
  | n + 1, st, some t, acc =>
    strtokLoop delim n (strtok delim st).1 (strtok delim st).2 (acc ++ [t])

/-! ## The history buffer -/

/-- The type `History`: the slot array `commands[HISTORY_SIZE]` (a null slot is
`none`) and `count`. -/
structure History where
  commands : List (Option (List Char))
  count : Nat
deriving DecidableEq, Repr

/-- The zero-initialised global `history`. -/
def History.empty : History :=
  ⟨List.replicate HISTORY_SIZE none, 0⟩

/-- The loop `for (i = 1; i < HISTORY_SIZE; i++) commands[i - 1] = commands[i];`. -/
def shift_down (commands : List (Option (List Char))) : List (Option (List Char)) :=
  (List.range' 1 (HISTORY_SIZE - 1)).foldl
    (fun c i => c.set (i - 1) (c.getD i none)) commands

/-- The function `add_history(cmd)`, with `cmd` the string copied by `strdup`. -/
def add_history (h : History) (cmd : List Char) : History :=
  if h.count < HISTORY_SIZE then
    ⟨h.commands.set h.count (some cmd), h.count + 1⟩
  else
    ⟨(shift_down h.commands).set (HISTORY_SIZE - 1) (some cmd), h.count⟩

/-- The function `show_history()`: the pairs `(i + 1, commands[i])` handed to
`printf("%d %s\n", ...)`, in printing order. -/
def show_history (h : History) : List (Nat × Option (List Char)) :=
  (List.range h.count).map (fun i => (i + 1, h.commands.getD i none))

/-! ## `pass_command` -/

/-- What `pass_command` leaves behind: the line buffer as modified, the
pointers stored in `args[0 .. index-1]` (offsets into the buffer), and the
returned flag. The terminator `args[index] = NULL` is stored at slot
`index = args.length`. -/
structure PassResult where
  cmd : List Char
  args : List Nat
  is_background : Bool
deriving DecidableEq, Repr

/-- The slot receiving the final `NULL`. -/
def PassResult.index (r : PassResult) : Nat :=
  r.args.length

/-- The argument vector as strings, read from the buffer after the call. -/
def PassResult.argv (r : PassResult) : List (List Char) :=
  r.args.map (cstrAt r.cmd)

/-- The index `strlen(cmd) - 1`, computed in `size_t`. -/
def last_index (cmd : List Char) : Nat :=
  (strlen cmd + SIZE_MOD - 1) % SIZE_MOD

/-- The function `pass_command(cmd, args)` on the buffer `cmd` (the bytes from the pointer
to the end of the array). The result is `none` when the read
`cmd[strlen(cmd) - 1]` falls outside the buffer, where the C code has no
defined behaviour. -/
def pass_command (cmd : List Char) : Option PassResult :=
  let cmd1 := cmd.set (strcspn cmd ['\n']) NUL
  match cmd1[last_index cmd1]? with
  | none => none
  | some c =>
    let is_background : Bool := c == '&'
    let cmd2 := if is_background then cmd1.set (last_index cmd1) NUL else cmd1
    let first := strtok [' '] ⟨[], cmd2⟩
    let r := strtokLoop [' '] MAX_ARGS first.1 first.2 []
    some ⟨r.1.buf, r.2.2, is_background⟩

/-! ## The splitter of `execute_piped_commands` -/

/-- Result of the splitting loop: the buffer as modified and the pointers
stored in `commands[0 .. num_commands-1]`; the k-th element was stored at
index k. -/
structure SplitResult where
  cmd : List Char
  commands : List Nat
deriving DecidableEq, Repr

/-- The value of `num_commands` after the loop. -/
def SplitResult.num_commands (r : SplitResult) : Nat :=
  r.commands.length

/-- The indices of `commands` written by the loop, in order. -/
def SplitResult.written (r : SplitResult) : List Nat :=
  List.range r.commands.length

/-- The stages as strings, read from the buffer after the loop. -/
def SplitResult.stages (r : SplitResult) : List (List Char) :=
  r.commands.map (cstrAt r.cmd)

/-- The loop of `execute_piped_commands` that splits at the pipe symbol,
run with the given fuel; `none` when the fuel is used up before `strtok`
returns `NULL`. The loop has no bound on `num_commands`. -/
def split_fuel (fuel : Nat) (cmd : List Char) : Option SplitResult :=
  let first := strtok ['|'] ⟨[], cmd⟩
  let r := strtokLoop ['|'] fuel first.1 first.2 []
  match r.2.1 with
  | none => some ⟨r.1.buf, r.2.2⟩
  | some _ => none

/-- The splitting loop; every token takes at least one byte of the buffer, so
`cmd.length + 1` iterations are enough. -/
def split_commands (cmd : List Char) : Option SplitResult :=
  split_fuel (cmd.length + 1) cmd

/-! ## Pipe table and child wiring -/

/-- The index of `pipefds` whose descriptor the child of stage `cmd_index`
duplicates onto descriptor 0, if any: `if (cmd_index > 0) dup2(pipefds[(cmd_index - 1) * 2], 0)`. -/
def stdin_index (cmd_index : Int) : Option Int :=
  if cmd_index > 0 then some ((cmd_index - 1) * 2) else none

/-- The index of `pipefds` whose descriptor the child of stage `cmd_index`
duplicates onto descriptor 1, if any:
`if (cmd_index < num_commands - 1) dup2(pipefds[cmd_index * 2 + 1], 1)`. -/
def stdout_index (num_commands cmd_index : Int) : Option Int :=
  if cmd_index < num_commands - 1 then some (cmd_index * 2 + 1) else none

/-- What one iteration of the loop of `main` does with the line read, after
it has been recorded in the history. -/
inductive Dispatch where
  /-- The branch `show_history(); continue;`. -/
  | history
  /-- The branch `break;`. -/
  | exit
  /-- The branch `handle_cd(args); continue;`. -/
  | cd (args : List (List Char))
  /-- The call `execute_piped_commands(cmd)` with the string `cmd` holds at that point. -/
  | piped (cmd : List Char)
  /-- The call `launch(args, is_background)`. -/
  | launch (args : List (List Char)) (is_background : Bool)
  /-- No defined behaviour: an out-of-bounds read in `pass_command`, or
  `strcmp(args[0], ...)` on a null `args[0]` -/
  | undefined
deriving DecidableEq, Repr

/-- The dispatch of `main` on the buffer `cmd` filled by `fgets`. -/
def main_dispatch (cmd : List Char) : Dispatch :=
  if streq (cstr cmd) "history\n".toList then Dispatch.history
  else
    match pass_command cmd with
    | none => Dispatch.undefined
    | some r =>
      match r.argv with
      | [] => Dispatch.undefined
      | a0 :: _ =>
        if streq a0 "exit".toList then Dispatch.exit
        else if streq a0 "cd".toList then Dispatch.cd r.argv
        else if strchr_found r.cmd '|' then Dispatch.piped (cstr r.cmd)
        else Dispatch.launch r.argv r.is_background

/-- The argument vectors `execute_piped_commands` builds: the line is split at
the pipe symbol and `pass_command` is run on every stage (on the buffer from
the stage's pointer on). -/
def stage_vectors (cmd : List Char) : Option (List (Option (List (List Char)))) :=
  (split_commands cmd).map (fun s =>
    s.commands.map (fun p => (pass_command (s.cmd.drop p)).map PassResult.argv))

/-- The buffer `fgets` fills for a line: the characters, the terminator, and
whatever the array held after it. -/
def line_buf (line : String) (rest : List Char) : List Char :=
  line.toList ++ NUL :: rest

/-! ## Specification-side definitions -/

/-- The history after recording `lines` in order, starting from the empty one. -/
def record_all (lines : List (List Char)) : History :=
  lines.foldl add_history History.empty

/-- The last `min N HISTORY_SIZE` of `N` lines. -/
def last_lines (lines : List (List Char)) : List (List Char) :=
  lines.drop (lines.length - HISTORY_SIZE)

/-- The fields of a string: the non-empty pieces between occurrences of the
separator `d`. -/
def fields (d : Char) (s : List Char) : List (List Char) :=
  (s.splitOn d).filter (fun t => !t.isEmpty)

/-- Tokens separated by runs of spaces: the k-th gap has `gaps[k] + 1` spaces
(one space where `gaps` has no entry). -/
def spaced : List (List Char) → List Nat → List Char
  | [], _ => []
  | [t], _ => t
  | t :: t' :: ts, gaps =>
    t ++ List.replicate (gaps.headD 0 + 1) ' ' ++ spaced (t' :: ts) gaps.tail


/-- A system call made or a message printed by a process. The descriptors of
the pipe table are named by their slot in `pipefds`. -/
inductive Event where
  /-- The call `pipe(pipefds + i * 2)`, which fills the slots `2i` and `2i+1`. -/
  | pipe (i : Nat)
  /-- The call `fork()`. -/
  | fork
  /-- The call `dup2(pipefds[slot], target)`. -/
  | dup2 (slot : Int) (target : Nat)
  /-- The call `close(pipefds[slot])`. -/
  | close (slot : Nat)
  /-- The call `execvp(args[0], args)`. -/
  | execvp (args : List (List Char))
  /-- The call `wait(NULL)`. -/
  | wait
  /-- The call `waitpid(pid, &status, 0)`. -/
  | waitpid (pid : Nat)
  /-- The call `perror(msg)`. -/
  | perror (msg : String)
  /-- A text written by `printf` or `fprintf`. -/
  | print (text : String)
  /-- The listing written by `show_history`. -/
  | print_history (entries : List (Nat × Option (List Char)))
  /-- The call `chdir(path)`. -/
  | chdir (path : List Char)
  /-- The call `exit(EXIT_FAILURE)`. -/
  | exit_failure
deriving DecidableEq, Repr

/-- How a process leaves a function: it returns to the caller, it ends with
`exit`, or `execvp` has replaced its program image. -/
inductive Outcome where
  | returned
  | exited
  | replaced
deriving DecidableEq, Repr

/-- The three answers of `fork`: `-1`, `0` in the child, the child's
identifier in the parent. -/
inductive ForkResult where
  | failed
  | child
  | parent (pid : Nat)
deriving DecidableEq, Repr

/-- The function `launch(args, is_background)`, in the process that `fork`
answers with `r`; `exec_ok` tells whether `execvp` succeeds in the child. -/
def launch (args : List (List Char)) (is_background : Bool) (r : ForkResult)
    (exec_ok : Bool) : List Event × Outcome :=
  match r with
  | ForkResult.failed => ([Event.fork, Event.perror "Failed to fork"], Outcome.returned)
  | ForkResult.child =>
    if exec_ok then ([Event.fork, Event.execvp args], Outcome.replaced)
    else ([Event.fork, Event.execvp args, Event.perror "Error executing command",
            Event.exit_failure], Outcome.exited)
  | ForkResult.parent pid =>
    if !is_background then ([Event.fork, Event.waitpid pid], Outcome.returned)
    else ([Event.fork,
            Event.print ("Process running in background with PID: " ++ toString pid ++ "\n")],
          Outcome.returned)

/-- The function `handle_cd(args)`; `args[1]` is null when the vector has one
element. `chdir_ok` tells whether `chdir` succeeds. -/
def handle_cd (args : List (List Char)) (chdir_ok : Bool) : List Event :=
  match args[1]? with
  | none => [Event.print "cd: expected argument to \x22cd\x22\n"]
  | some target =>
    if chdir_ok then [Event.chdir target] else [Event.chdir target, Event.perror "cd"]

/-- The pipe creation loop of `execute_piped_commands` as seen in the calls
made: `k` iterations are left, `i` is the loop variable; the flag is false
when a call failed and the process has ended with `exit`. -/
def pipes_phase (sys_pipe : Nat → Option (Nat × Nat)) : Nat → Nat → List Event × Bool
  | 0, _ => ([], true)
  | k + 1, i =>
    match sys_pipe i with
    | none => ([Event.pipe i, Event.perror "Pipe failed", Event.exit_failure], false)
    | some _ =>
      (Event.pipe i :: (pipes_phase sys_pipe k (i + 1)).1, (pipes_phase sys_pipe k (i + 1)).2)

/-- The loop `while (cmd_index < num_commands)` in the orchestrating process:
`k` iterations are left, `i` is `cmd_index`, `sys_fork i` is the answer of
`fork` for stage `i` (`none`: failure, the process ends with `exit`). -/
def spawn_phase (sys_fork : Nat → Option Nat) : Nat → Nat → List Event × Bool
  | 0, _ => ([], true)
  | k + 1, i =>
    match sys_fork i with
    | none => ([Event.fork, Event.perror "Failed to fork", Event.exit_failure], false)
    | some _ =>
      (Event.fork :: (spawn_phase sys_fork k (i + 1)).1, (spawn_phase sys_fork k (i + 1)).2)

/-- The loop `for (i = 0; i < 2 * (num_commands - 1); i++) close(pipefds[i]);`. -/
def close_phase (num_commands : Nat) : List Event :=
  (List.range (2 * (num_commands - 1))).map Event.close

/-- The loop `for (i = 0; i < num_commands; i++) wait(NULL);`. -/
def wait_phase (num_commands : Nat) : List Event :=
  List.replicate num_commands Event.wait

/-- The orchestrating process in `execute_piped_commands` once the line is
split into `num_commands` stages: pipe creation, the spawn loop, the closing
loop and the waiting loop. -/
def orchestrate (sys_pipe : Nat → Option (Nat × Nat)) (sys_fork : Nat → Option Nat)
    (num_commands : Nat) : List Event × Outcome :=
  if (pipes_phase sys_pipe (num_commands - 1) 0).2 then
    if (spawn_phase sys_fork num_commands 0).2 then
      ((pipes_phase sys_pipe (num_commands - 1) 0).1 ++ (spawn_phase sys_fork num_commands 0).1
          ++ close_phase num_commands ++ wait_phase num_commands,
        Outcome.returned)
    else
      ((pipes_phase sys_pipe (num_commands - 1) 0).1 ++ (spawn_phase sys_fork num_commands 0).1,
        Outcome.exited)
  else ((pipes_phase sys_pipe (num_commands - 1) 0).1, Outcome.exited)

/-- The child of stage `cmd_index` in `execute_piped_commands`, from the
answer `0` of `fork` on: the two `dup2` calls, the closing loop and `execvp`.
The flags tell whether the calls succeed. -/
def child_stage (num_commands cmd_index : Nat) (args : List (List Char))
    (dup_in_ok dup_out_ok exec_ok : Bool) : List Event × Outcome :=
  let dup_in : List Event :=
    match stdin_index (cmd_index : Int) with
    | some k => [Event.dup2 k 0]
    | none => []
  let dup_out : List Event :=
    match stdout_index (num_commands : Int) (cmd_index : Int) with
    | some k => [Event.dup2 k 1]
    | none => []
  if dup_in ≠ [] ∧ dup_in_ok = false then
    (dup_in ++ [Event.perror "dup2 failed", Event.exit_failure], Outcome.exited)
  else if dup_out ≠ [] ∧ dup_out_ok = false then
    (dup_in ++ dup_out ++ [Event.perror "dup2 failed", Event.exit_failure], Outcome.exited)
  else if exec_ok then
    (dup_in ++ dup_out ++ close_phase num_commands ++ [Event.execvp args], Outcome.replaced)
  else
    (dup_in ++ dup_out ++ close_phase num_commands ++
      [Event.execvp args, Event.perror "Error executing command", Event.exit_failure],
      Outcome.exited)

/-- The function `execute_piped_commands(cmd)` in the orchestrating process.
The result is `none` when no stage is found, where the array `pipefds` is
declared with a negative size and the C code has no defined behaviour, or
when the splitting loop is out of fuel. -/
def execute_piped_commands (sys_pipe : Nat → Option (Nat × Nat)) (sys_fork : Nat → Option Nat)
    (cmd : List Char) : Option (List Event × Outcome) :=
  match split_commands cmd with
  | none => none
  | some s =>
    if s.num_commands = 0 then none
    else some (orchestrate sys_pipe sys_fork s.num_commands)

/-- The answers of the operating system during one iteration of the loop of
`main`. -/
structure Sys where
  chdir_ok : Bool
  launch_fork : ForkResult
  exec_ok : Bool
  sys_pipe : Nat → Option (Nat × Nat)
  sys_fork : Nat → Option Nat

/-- What the loop of `main` does after an iteration. -/
inductive Control where
  /-- The loop goes on with the next line. -/
  | next_line
  /-- The loop is left (`break`). -/
  | leave_loop
  /-- The process has ended with `exit`. -/
  | ended
  /-- The process image has been replaced by `execvp`. -/
  | image_replaced
  /-- No defined behaviour. -/
  | undefined
deriving DecidableEq, Repr

/-- The control after a call that left with the given outcome. -/
def Control.after (o : Outcome) : Control :=
  match o with
  | Outcome.returned => Control.next_line
  | Outcome.exited => Control.ended
  | Outcome.replaced => Control.image_replaced

/-- One iteration of the loop of `main` on the buffer `cmd` filled by
`fgets`: the line is recorded, then dispatched. The result is the history,
the calls made and the control. -/
def main_iteration (sys : Sys) (h : History) (cmd : List Char) :
    History × List Event × Control :=
  let h1 := add_history h (cstr cmd)
  match main_dispatch cmd with
  | Dispatch.history => (h1, [Event.print_history (show_history h1)], Control.next_line)
  | Dispatch.exit => (h1, [], Control.leave_loop)
  | Dispatch.cd args => (h1, handle_cd args sys.chdir_ok, Control.next_line)
  | Dispatch.piped c =>
    match execute_piped_commands sys.sys_pipe sys.sys_fork (c ++ [NUL]) with
    | none => (h1, [], Control.undefined)
    | some r => (h1, r.1, Control.after r.2)
  | Dispatch.launch args bg =>
    (h1, (launch args bg sys.launch_fork sys.exec_ok).1,
      Control.after (launch args bg sys.launch_fork sys.exec_ok).2)
  | Dispatch.undefined => (h1, [], Control.undefined)

/-- The loop of `main` on the buffers read, each with the answers of the
operating system for its iteration; the end of the list is the end of input.
The prompt is printed before every read. -/
def main_loop : History → List (Sys × List Char) → History × List Event × Control
  | h, [] => (h, [Event.print "Kanav> "], Control.leave_loop)
  | h, (sys, cmd) :: rest =>
    match (main_iteration sys h cmd).2.2 with
    | Control.next_line =>
      ((main_loop (main_iteration sys h cmd).1 rest).1,
        Event.print "Kanav> " :: (main_iteration sys h cmd).2.1
          ++ (main_loop (main_iteration sys h cmd).1 rest).2.1,
        (main_loop (main_iteration sys h cmd).1 rest).2.2)
    | c => ((main_iteration sys h cmd).1,
        Event.print "Kanav> " :: (main_iteration sys h cmd).2.1, c)

/-- The default answers used in examples: every call succeeds, `fork`
answers in the parent. -/
def Sys.all_ok : Sys :=
  ⟨true, ForkResult.parent 100, true, fun i => some (3 + 2 * i, 4 + 2 * i), fun i => some (200 + i)⟩

/-! ## History: lemmas -/

theorem shift_steps {α : Type} (d : α) (c : List α) (k : Nat) (hk : k + 1 ≤ c.length) :
    (List.range' 1 k).foldl (fun c i => c.set (i - 1) (c.getD i d)) c
      = (c.drop 1).take k ++ c.drop k := by
  induction k with
  | zero => simp
  | succ k ih =>
    have hk' : k + 1 ≤ c.length := by omega
    rw [List.range'_concat, List.foldl_append, ih hk']
    simp only [List.foldl_cons, List.foldl_nil, Nat.add_sub_cancel_left, one_mul]
    apply List.ext_getElem?
    intro i
    simp only [List.getD_eq_getElem?_getD, List.getElem?_set, List.getElem?_append, List.getElem?_take, List.getElem?_drop,
      List.length_append, List.length_take, List.length_drop]
    have h1 : min k (c.length - 1) = k := by omega
    have h2 : min (k+1) (c.length - 1) = k + 1 := by omega
    simp only [h1, h2]
    by_cases hik : i = k
    · subst hik
      simp
      have : i + 1 < c.length := by omega
      simp [this, Nat.add_comm]
      omega
    · rcases Nat.lt_or_gt_of_ne hik with h | h
      · have : ¬ (k = i) := by omega
        simp [this, h]
        have : i < k + 1 := by omega
        simp [this]
      · have : ¬ (k = i) := by omega
        have h3 : ¬ (i < k) := by omega
        have h4 : ¬ (i < k + 1) := by omega
        simp [this, h3, h4]
        congr 1
        omega


theorem shift_down_eq (c : List (Option (List Char))) (x : Option (List Char))
    (hc : c.length = HISTORY_SIZE) :
    (shift_down c).set (HISTORY_SIZE - 1) x = c.drop 1 ++ [x] := by
  unfold shift_down
  rw [shift_steps none c (HISTORY_SIZE - 1) (by rw [hc]; decide)]
  have h1 : ((c.drop 1).take (HISTORY_SIZE - 1)) = c.drop 1 := by
    apply List.take_of_length_le
    simp [hc]
  rw [h1]
  have h2 : (c.drop 1).length = HISTORY_SIZE - 1 := by simp [hc]
  rw [List.set_append_right _ _ (by omega), h2, Nat.sub_self]
  congr 1
  have h3 : (c.drop (HISTORY_SIZE - 1)).length = 1 := by simp [hc, HISTORY_SIZE]
  match hd : c.drop (HISTORY_SIZE - 1), h3 with
  | [y], _ => simp

/-- The slots and the count after recording `lines`. -/
theorem record_all_inv (lines : List (List Char)) :
    (record_all lines).count = min lines.length HISTORY_SIZE ∧
    (record_all lines).commands =
      (last_lines lines).map some ++
        List.replicate (HISTORY_SIZE - min lines.length HISTORY_SIZE) none := by
  induction lines using List.reverseRecOn with
  | nil => simp [record_all, History.empty, last_lines]
  | append_singleton ls l ih =>
    obtain ⟨ihc, ihs⟩ := ih
    have hstep : record_all (ls ++ [l]) = add_history (record_all ls) l := by
      simp [record_all, List.foldl_append]
    rw [hstep]
    unfold add_history
    by_cases hlt : ls.length < HISTORY_SIZE
    · have hc : (record_all ls).count = ls.length := by rw [ihc]; omega
      have hll : last_lines ls = ls := by
        unfold last_lines
        rw [Nat.sub_eq_zero_of_le (by omega)]; rfl
      have hll2 : last_lines (ls ++ [l]) = ls ++ [l] := by
        unfold last_lines
        rw [Nat.sub_eq_zero_of_le (by simp; omega)]; rfl
      rw [if_pos (by rw [hc]; exact hlt)]
      simp only [hc, ihs, hll, hll2]
      constructor
      · simp; omega
      · have hm : min ls.length HISTORY_SIZE = ls.length := by omega
        have hm2 : min (ls ++ [l]).length HISTORY_SIZE = ls.length + 1 := by simp; omega
        rw [hm, hm2]
        rw [List.set_append_right _ _ (by simp)]
        simp only [List.length_map, Nat.sub_self]
        obtain ⟨k, hk⟩ : ∃ k, HISTORY_SIZE - ls.length = k + 1 := ⟨HISTORY_SIZE - ls.length - 1, by omega⟩
        have hk2 : HISTORY_SIZE - (ls.length + 1) = k := by omega
        rw [hk, hk2]
        simp [List.replicate_succ]
    · have hge : HISTORY_SIZE ≤ ls.length := by omega
      have hc : (record_all ls).count = HISTORY_SIZE := by rw [ihc]; omega
      rw [if_neg (by rw [hc]; omega)]
      have hm : min ls.length HISTORY_SIZE = HISTORY_SIZE := by omega
      have hm2 : min (ls ++ [l]).length HISTORY_SIZE = HISTORY_SIZE := by simp; omega
      rw [hm] at ihs
      simp only [Nat.sub_self, List.replicate_zero, List.append_nil] at ihs
      have hlen : (record_all ls).commands.length = HISTORY_SIZE := by
        rw [ihs]; simp [last_lines]; omega
      rw [shift_down_eq _ _ hlen, hm2]
      refine ⟨hc, ?_⟩
      simp only [Nat.sub_self, List.replicate_zero, List.append_nil, ihs]
      unfold last_lines
      simp only [List.length_append, List.length_singleton]
      rw [← List.map_drop, List.drop_drop]
      have : ls.length - HISTORY_SIZE + 1 = ls.length + 1 - HISTORY_SIZE := by omega
      have hpos : 0 < HISTORY_SIZE := by decide
      rw [this, List.drop_append_of_le_length (by omega)]
      simp


theorem show_history_record_all (lines : List (List Char)) :
    show_history (record_all lines) =
      (List.range (min lines.length HISTORY_SIZE)).map
        (fun i => (i + 1, (last_lines lines)[i]?)) := by
  obtain ⟨hc, hs⟩ := record_all_inv lines
  unfold show_history
  rw [hc]
  apply List.map_congr_left
  intro i hi
  rw [List.mem_range] at hi
  have hlen : (last_lines lines).length = min lines.length HISTORY_SIZE := by
    simp [last_lines]; omega
  rw [hs, List.getD_eq_getElem?_getD, List.getElem?_append_left (by simp; omega)]
  simp [List.getElem?_map]
  rw [List.getElem?_eq_getElem (by omega)]
  simp


/-! ## `strtok`: lemmas -/

theorem span_shape {α : Type} (p : α → Bool) (l : List α) :
    (∀ x ∈ l.takeWhile p, p x = true) ∧
    (l.dropWhile p = [] ∨ ∃ c r, l.dropWhile p = c :: r ∧ p c = false) := by
  induction l with
  | nil => simp
  | cons a l ih =>
    by_cases h : p a = true
    · simp only [List.takeWhile_cons_of_pos h, List.dropWhile_cons_of_pos h]
      refine ⟨?_, ih.2⟩
      intro x hx
      rcases List.mem_cons.1 hx with rfl | hx
      · exact h
      · exact ih.1 x hx
    · simp only [List.takeWhile_cons_of_neg h, List.dropWhile_cons_of_neg h]
      refine ⟨by simp, Or.inr ⟨a, l, rfl, by simpa using h⟩⟩

theorem cstr_nil : cstr [] = [] := rfl

theorem cstr_nul (r : List Char) : cstr (NUL :: r) = [] := by
  simp [cstr]

theorem cstr_append (a b : List Char) (ha : ∀ c ∈ a, c ≠ NUL) :
    cstr (a ++ b) = a ++ cstr b := by
  unfold cstr
  rw [List.takeWhile_append_of_pos]
  intro c hc
  simpa using ha c hc

theorem cstr_of_end (a s : List Char) (ha : ∀ c ∈ a, c ≠ NUL)
    (hs : s = [] ∨ ∃ r, s = NUL :: r) : cstr (a ++ s) = a := by
  rw [cstr_append a s ha]
  rcases hs with rfl | ⟨r, rfl⟩
  · simp [cstr_nil]
  · simp [cstr_nul]

theorem cstrAt_append (a b : List Char) : cstrAt (a ++ b) a.length = cstr b := by
  simp [cstrAt]

/-- The three outcomes of a `strtok` call with the single delimiter `d`. -/
theorem strtok_cases (d : Char) (hd : d ≠ NUL) (pre suf : List Char) :
    (∃ ds s1, suf = ds ++ s1 ∧ (∀ c ∈ ds, c = d) ∧ (s1 = [] ∨ ∃ r, s1 = NUL :: r) ∧
       strtok [d] ⟨pre, suf⟩ = (⟨pre ++ ds, s1⟩, none)) ∨
    (∃ ds tok s2, suf = ds ++ tok ++ s2 ∧ (∀ c ∈ ds, c = d) ∧ tok ≠ [] ∧
       (∀ c ∈ tok, c ≠ NUL ∧ c ≠ d) ∧ (s2 = [] ∨ ∃ r, s2 = NUL :: r) ∧
       strtok [d] ⟨pre, suf⟩ = (⟨pre ++ ds ++ tok, s2⟩, some (pre ++ ds).length)) ∨
    (∃ ds tok s3, suf = ds ++ tok ++ d :: s3 ∧ (∀ c ∈ ds, c = d) ∧ tok ≠ [] ∧
       (∀ c ∈ tok, c ≠ NUL ∧ c ≠ d) ∧
       strtok [d] ⟨pre, suf⟩ = (⟨pre ++ ds ++ tok ++ [NUL], s3⟩, some (pre ++ ds).length)) := by
  have hsplit := List.takeWhile_append_dropWhile (fun c => c != NUL && [d].contains c) suf
  obtain ⟨hds, hs1⟩ := span_shape (fun c => c != NUL && [d].contains c) suf
  have hds' : ∀ c ∈ suf.takeWhile (fun c => c != NUL && [d].contains c), c = d := by
    intro c hc
    have := hds c hc
    simp at this
    exact this.2
  rcases hs1 with h1 | ⟨c, r1, h1, hc⟩
  · left
    refine ⟨suf.takeWhile (fun c => c != NUL && [d].contains c), [], ?_, hds', Or.inl rfl, ?_⟩
    · rw [h1] at hsplit; exact hsplit.symm
    · simp only [strtok, h1]
  · by_cases hcn : c = NUL
    · left
      refine ⟨suf.takeWhile (fun c => c != NUL && [d].contains c), c :: r1, ?_, hds',
        Or.inr ⟨r1, by rw [hcn]⟩, ?_⟩
      · rw [h1] at hsplit; exact hsplit.symm
      · simp only [strtok, h1, hcn, if_true]
    · right
      have hcd : c ≠ d := by
        intro h
        simp [hcn, h] at hc
        exact hd hc
      have hsplit2 :=
        List.takeWhile_append_dropWhile (fun c => c != NUL && !([d].contains c)) (c :: r1)
      obtain ⟨htok, hs2⟩ := span_shape (fun c => c != NUL && !([d].contains c)) (c :: r1)
      have htok' : ∀ x ∈ (c :: r1).takeWhile (fun c => c != NUL && !([d].contains c)),
          x ≠ NUL ∧ x ≠ d := by
        intro x hx
        have := htok x hx
        simpa using this
      have hne : (c :: r1).takeWhile (fun c => c != NUL && !([d].contains c)) ≠ [] := by
        rw [List.takeWhile_cons_of_pos (by simp [hcn, hcd])]
        simp
      rw [h1] at hsplit
      rcases hs2 with h2 | ⟨e, s3, h2, he⟩
      · left
        refine ⟨suf.takeWhile (fun c => c != NUL && [d].contains c),
          (c :: r1).takeWhile (fun c => c != NUL && !([d].contains c)), [], ?_, hds', hne, htok',
          Or.inl rfl, ?_⟩
        · rw [h2] at hsplit2
          rw [List.append_assoc, hsplit2, hsplit]
        · simp only [strtok, h1, hcn, if_false, h2]
      · rw [h2] at hsplit2
        by_cases hen : e = NUL
        · left
          refine ⟨suf.takeWhile (fun c => c != NUL && [d].contains c),
            (c :: r1).takeWhile (fun c => c != NUL && !([d].contains c)), e :: s3, ?_, hds', hne,
            htok', Or.inr ⟨s3, by rw [hen]⟩, ?_⟩
          · rw [List.append_assoc, hsplit2, hsplit]
          · simp only [strtok, h1, hcn, if_false, h2, hen, if_true]
        · right
          have hed : e = d := by
            simp [hen] at he
            exact he
          refine ⟨suf.takeWhile (fun c => c != NUL && [d].contains c),
            (c :: r1).takeWhile (fun c => c != NUL && !([d].contains c)), s3, ?_, hds', hne,
            htok', ?_⟩
          · subst hed
            rw [List.append_assoc, hsplit2, hsplit]
          · simp only [strtok, h1, hcn, if_false, h2, hen]


/-! ## Fields -/

theorem fields_nil (d : Char) : fields d [] = [] := by
  simp [fields, List.splitOn]

theorem fields_sep (d : Char) (s : List Char) : fields d (d :: s) = fields d s := by
  simp [fields, List.splitOn, List.splitOnP_cons]

theorem fields_seps (d : Char) (ds s : List Char) (h : ∀ c ∈ ds, c = d) :
    fields d (ds ++ s) = fields d s := by
  induction ds with
  | nil => rfl
  | cons a ds ih =>
    have ha : a = d := h a (by simp)
    subst ha
    rw [List.cons_append, fields_sep]
    exact ih (fun c hc => h c (by simp [hc]))

theorem fields_single (d : Char) (tok : List Char) (hne : tok ≠ []) (h : ∀ c ∈ tok, c ≠ d) :
    fields d tok = [tok] := by
  unfold fields List.splitOn
  rw [List.splitOnP_eq_single]
  · cases tok with
    | nil => exact absurd rfl hne
    | cons a t => simp
  · intro x hx
    simpa using h x hx

theorem fields_token (d : Char) (tok s : List Char) (hne : tok ≠ [])
    (h : ∀ c ∈ tok, c ≠ d) : fields d (tok ++ d :: s) = tok :: fields d s := by
  unfold fields List.splitOn
  rw [List.splitOnP_first _ _ (by intro x hx; simpa using h x hx) d (by simp)]
  cases tok with
  | nil => exact absurd rfl hne
  | cons a t => simp

theorem splitOnP_ne_nil {α : Type} (p : α → Bool) (l : List α) : l.splitOnP p ≠ [] := by
  induction l with
  | nil => simp
  | cons a l ih =>
    rw [List.splitOnP_cons]
    split
    · simp
    · cases h : List.splitOnP p l with
      | nil => exact absurd h ih
      | cons x xs => simp [List.modifyHead]

theorem strtokLoop_none (delim : List Char) (n : Nat) (st : TokState) (acc : List Nat) :
    strtokLoop delim n st none acc = (st, none, acc) := by
  cases n <;> rfl

theorem strtok_at_end (d : Char) (p s : List Char) (hs : s = [] ∨ ∃ r, s = NUL :: r) :
    strtok [d] ⟨p, s⟩ = (⟨p, s⟩, none) := by
  rcases hs with rfl | ⟨r, rfl⟩
  · simp [strtok]
  · simp [strtok]

/-- The token loop started by a `strtok` call on `⟨pre, suf⟩`: the bytes
before the saved pointer are kept, the buffer keeps its length, the strings
at the stored offsets are the first `n` fields of the string at the saved
pointer, and no token is pending once the fields are used up. -/
theorem strtokLoop_fields (d : Char) (hd : d ≠ NUL) (n : Nat) :
    ∀ (pre suf : List Char) (acc : List Nat), ∃ suf' offs,
      (strtokLoop [d] n (strtok [d] ⟨pre, suf⟩).1 (strtok [d] ⟨pre, suf⟩).2 acc).1.buf
          = pre ++ suf' ∧
      (strtokLoop [d] n (strtok [d] ⟨pre, suf⟩).1 (strtok [d] ⟨pre, suf⟩).2 acc).2.2
          = acc ++ offs ∧
      offs.map (cstrAt (pre ++ suf')) = (fields d (cstr suf)).take n ∧
      suf'.length = suf.length ∧
      (suf.length ≤ n →
        (strtokLoop [d] n (strtok [d] ⟨pre, suf⟩).1 (strtok [d] ⟨pre, suf⟩).2 acc).2.1 = none) ∧
      ((fields d (cstr suf)).length ≤ n →
        (strtokLoop [d] n (strtok [d] ⟨pre, suf⟩).1 (strtok [d] ⟨pre, suf⟩).2 acc).2.1 = none) := by
  induction n with
  | zero =>
    intro pre suf acc
    rcases strtok_cases d hd pre suf with
      ⟨ds, s1, hsuf, hds, hs1, hst⟩ | ⟨ds, tok, s2, hsuf, hds, hne, htok, hs2, hst⟩ |
      ⟨ds, tok, s3, hsuf, hds, hne, htok, hst⟩
    · refine ⟨ds ++ s1, [], ?_, ?_, ?_, ?_, ?_, ?_⟩
      · simp [hst, strtokLoop, TokState.buf]
      · simp [hst, strtokLoop]
      · simp
      · rw [hsuf]
      · intro _; simp [hst, strtokLoop]
      · intro _; simp [hst, strtokLoop]
    · have hdn : ∀ c ∈ ds, c ≠ NUL := fun c hc => by rw [hds c hc]; exact hd
      have hcs : cstr suf = ds ++ tok := by
        rw [hsuf, List.append_assoc, cstr_append _ _ hdn, cstr_of_end _ _ (fun c hc => (htok c hc).1) hs2]
      refine ⟨ds ++ tok ++ s2, [], ?_, ?_, ?_, ?_, ?_, ?_⟩
      · simp [hst, strtokLoop, TokState.buf]
      · simp [hst, strtokLoop]
      · simp
      · rw [hsuf]
      · intro h
        exfalso
        rw [hsuf] at h
        cases tok with
        | nil => exact hne rfl
        | cons a t => simp at h
      · intro h
        exfalso
        rw [hcs, fields_seps d ds tok hds, fields_single d tok hne (fun c hc => (htok c hc).2)] at h
        simp at h
    · have hdn : ∀ c ∈ ds, c ≠ NUL := fun c hc => by rw [hds c hc]; exact hd
      have hcs : cstr suf = ds ++ (tok ++ d :: cstr s3) := by
        rw [hsuf, List.append_assoc, cstr_append _ _ hdn, cstr_append _ _ (fun c hc => (htok c hc).1)]
        congr 2
        have : d :: s3 = [d] ++ s3 := rfl
        rw [this, cstr_append [d] s3 (by simpa using hd)]
        rfl
      refine ⟨ds ++ tok ++ NUL :: s3, [], ?_, ?_, ?_, ?_, ?_, ?_⟩
      · simp [hst, strtokLoop, TokState.buf]
      · simp [hst, strtokLoop]
      · simp
      · rw [hsuf]; simp
      · intro h
        exfalso
        rw [hsuf] at h
        simp at h
      · intro h
        exfalso
        rw [hcs, fields_seps d ds _ hds, fields_token d tok _ hne (fun c hc => (htok c hc).2)] at h
        simp at h
  | succ n ih =>
    intro pre suf acc
    rcases strtok_cases d hd pre suf with
      ⟨ds, s1, hsuf, hds, hs1, hst⟩ | ⟨ds, tok, s2, hsuf, hds, hne, htok, hs2, hst⟩ |
      ⟨ds, tok, s3, hsuf, hds, hne, htok, hst⟩
    · have hdn : ∀ c ∈ ds, c ≠ NUL := fun c hc => by rw [hds c hc]; exact hd
      have hcs : cstr suf = ds := by rw [hsuf, cstr_of_end _ _ hdn hs1]
      have hf : fields d (cstr suf) = [] := by
        rw [hcs]
        have := fields_seps d ds [] hds
        rw [List.append_nil] at this
        rw [this, fields_nil]
      refine ⟨ds ++ s1, [], ?_, ?_, ?_, ?_, ?_, ?_⟩
      · simp [hst, strtokLoop, TokState.buf]
      · simp [hst, strtokLoop]
      · simp [hf]
      · rw [hsuf]
      · intro _; simp [hst, strtokLoop]
      · intro _; simp [hst, strtokLoop]
    · have hdn : ∀ c ∈ ds, c ≠ NUL := fun c hc => by rw [hds c hc]; exact hd
      have hcs : cstr suf = ds ++ tok := by
        rw [hsuf, List.append_assoc, cstr_append _ _ hdn, cstr_of_end _ _ (fun c hc => (htok c hc).1) hs2]
      have hf : fields d (cstr suf) = [tok] := by
        rw [hcs, fields_seps d ds tok hds, fields_single d tok hne (fun c hc => (htok c hc).2)]
      have hloop : strtokLoop [d] (n + 1) (strtok [d] ⟨pre, suf⟩).1 (strtok [d] ⟨pre, suf⟩).2 acc
          = (⟨pre ++ ds ++ tok, s2⟩, none, acc ++ [(pre ++ ds).length]) := by
        rw [hst]
        simp only [strtokLoop]
        rw [strtok_at_end d _ _ hs2, strtokLoop_none]
      refine ⟨ds ++ tok ++ s2, [(pre ++ ds).length], ?_, ?_, ?_, ?_, ?_, ?_⟩
      · rw [hloop]; simp [TokState.buf]
      · rw [hloop]
      · rw [hf]
        simp only [List.map_cons, List.map_nil, List.take_succ_cons, List.take_nil]
        have : pre ++ (ds ++ tok ++ s2) = (pre ++ ds) ++ (tok ++ s2) := by simp
        rw [this, cstrAt_append, cstr_of_end _ _ (fun c hc => (htok c hc).1) hs2]
      · rw [hsuf]
      · intro _; rw [hloop]
      · intro _; rw [hloop]
    · have hdn : ∀ c ∈ ds, c ≠ NUL := fun c hc => by rw [hds c hc]; exact hd
      have hcs : cstr suf = ds ++ (tok ++ d :: cstr s3) := by
        rw [hsuf, List.append_assoc, cstr_append _ _ hdn, cstr_append _ _ (fun c hc => (htok c hc).1)]
        congr 2
        have : d :: s3 = [d] ++ s3 := rfl
        rw [this, cstr_append [d] s3 (by simpa using hd)]
        rfl
      have hf : fields d (cstr suf) = tok :: fields d (cstr s3) := by
        rw [hcs, fields_seps d ds _ hds, fields_token d tok _ hne (fun c hc => (htok c hc).2)]
      obtain ⟨suf'', offs', hb, ha, hm, hl, hp1, hp2⟩ :=
        ih (pre ++ ds ++ tok ++ [NUL]) s3 (acc ++ [(pre ++ ds).length])
      have hloop : strtokLoop [d] (n + 1) (strtok [d] ⟨pre, suf⟩).1 (strtok [d] ⟨pre, suf⟩).2 acc
          = strtokLoop [d] n (strtok [d] ⟨pre ++ ds ++ tok ++ [NUL], s3⟩).1
              (strtok [d] ⟨pre ++ ds ++ tok ++ [NUL], s3⟩).2 (acc ++ [(pre ++ ds).length]) := by
        rw [hst]
        simp only [strtokLoop]
      have hbuf : pre ++ (ds ++ tok ++ NUL :: suf'') = pre ++ ds ++ tok ++ [NUL] ++ suf'' := by simp
      refine ⟨ds ++ tok ++ NUL :: suf'', (pre ++ ds).length :: offs', ?_, ?_, ?_, ?_, ?_, ?_⟩
      · rw [hloop, hb, hbuf]
      · rw [hloop, ha]; simp
      · rw [hf, List.take_succ_cons, List.map_cons, hbuf, hm]
        congr 1
        have : pre ++ ds ++ tok ++ [NUL] ++ suf'' = (pre ++ ds) ++ (tok ++ NUL :: suf'') := by simp
        rw [this, cstrAt_append, cstr_of_end _ _ (fun c hc => (htok c hc).1) (Or.inr ⟨suf'', rfl⟩)]
      · rw [hsuf]; simp [hl]
      · intro h
        rw [hloop]
        apply hp1
        rw [hsuf] at h
        simp at h
        omega
      · intro h
        rw [hloop]
        apply hp2
        rw [hf] at h
        simpa using h


/-! ## `pass_command`: lemmas -/

theorem last_index_eq (s : List Char) (h0 : 0 < strlen s) (h1 : strlen s < SIZE_MOD) :
    last_index s = strlen s - 1 := by
  unfold last_index
  have : strlen s + SIZE_MOD - 1 = (strlen s - 1) + SIZE_MOD := by omega
  rw [this, Nat.add_mod_right, Nat.mod_eq_of_lt (by omega)]

theorem strcspn_newline (body rest : List Char) (t : Char) (ht : t = '\n' ∨ t = NUL)
    (hb : ∀ c ∈ body, c ≠ NUL ∧ c ≠ '\n') :
    strcspn (body ++ t :: rest) ['\n'] = body.length := by
  unfold strcspn
  rw [List.takeWhile_append_of_pos, List.takeWhile_cons_of_neg]
  · simp
  · rcases ht with rfl | rfl <;> simp
  · intro c hc
    have := hb c hc
    simp [this.1, this.2]

theorem set_at_length (a rest : List Char) (t x : Char) :
    (a ++ t :: rest).set a.length x = a ++ x :: rest := by
  rw [List.set_append_right _ _ (Nat.le_refl _)]
  simp

/-- The result of the tokenising part of `pass_command` on a buffer. -/
theorem tokenize_fields (cmd : List Char) :
    ∃ buf offs,
      (strtokLoop [' '] MAX_ARGS (strtok [' '] ⟨[], cmd⟩).1 (strtok [' '] ⟨[], cmd⟩).2 []).1.buf = buf ∧
      (strtokLoop [' '] MAX_ARGS (strtok [' '] ⟨[], cmd⟩).1 (strtok [' '] ⟨[], cmd⟩).2 []).2.2 = offs ∧
      offs.map (cstrAt buf) = (fields ' ' (cstr cmd)).take MAX_ARGS ∧
      buf.length = cmd.length := by
  obtain ⟨suf', offs, h1, h2, h3, h4, _, _⟩ :=
    strtokLoop_fields ' ' (by decide) MAX_ARGS [] cmd []
  refine ⟨suf', offs, ?_, ?_, ?_, h4⟩
  · simpa using h1
  · simpa using h2
  · simpa using h3

theorem pass_command_eq (cmd cmd1 cmd2 : List Char) (i : Nat) (c : Char)
    (h1 : cmd.set (strcspn cmd ['\n']) NUL = cmd1) (h2 : last_index cmd1 = i)
    (h3 : cmd1[i]? = some c)
    (h4 : (if (c == '&') = true then cmd1.set i NUL else cmd1) = cmd2) :
    pass_command cmd = some
      ⟨(strtokLoop [' '] MAX_ARGS (strtok [' '] ⟨[], cmd2⟩).1 (strtok [' '] ⟨[], cmd2⟩).2 []).1.buf,
       (strtokLoop [' '] MAX_ARGS (strtok [' '] ⟨[], cmd2⟩).1 (strtok [' '] ⟨[], cmd2⟩).2 []).2.2,
       c == '&'⟩ := by
  subst h1 h4 h2
  simp only [pass_command, h3]

/-- The result of `pass_command` on a line with a non-empty text before its terminator. -/
theorem pass_command_body (body rest : List Char) (t : Char) (ht : t = '\n' ∨ t = NUL)
    (hb : ∀ c ∈ body, c ≠ NUL ∧ c ≠ '\n') (hne : body ≠ [])
    (hlen : body.length < SIZE_MOD) :
    ∃ r, pass_command (body ++ t :: rest) = some r ∧
      r.is_background = (body.getLast? == some '&') ∧
      r.argv = (fields ' ' (if body.getLast? = some '&' then body.dropLast else body)).take
        MAX_ARGS ∧
      r.cmd.length = (body ++ t :: rest).length := by
  obtain ⟨b0, x, rfl⟩ : ∃ b0 x, body = b0 ++ [x] := by
    rcases List.eq_nil_or_concat body with h | ⟨b0, x, h⟩
    · exact absurd h hne
    · exact ⟨b0, x, by simpa using h⟩
  have hb0 : ∀ c ∈ b0, c ≠ NUL := fun c hc => (hb c (by simp [hc])).1
  have hbn : ∀ c ∈ b0 ++ [x], c ≠ NUL := fun c hc => (hb c hc).1
  have hcmd1 : (b0 ++ [x] ++ t :: rest).set (strcspn (b0 ++ [x] ++ t :: rest) ['\n']) NUL
      = b0 ++ [x] ++ NUL :: rest := by
    rw [strcspn_newline _ _ _ ht hb, set_at_length]
  have hstrlen : strlen (b0 ++ [x] ++ NUL :: rest) = b0.length + 1 := by
    unfold strlen
    rw [cstr_of_end _ _ hbn (Or.inr ⟨rest, rfl⟩)]
    simp
  have hlast : last_index (b0 ++ [x] ++ NUL :: rest) = b0.length := by
    rw [last_index_eq _ (by omega) (by rw [hstrlen]; simpa using hlen), hstrlen]
    rfl
  have hget : (b0 ++ [x] ++ NUL :: rest)[b0.length]? = some x := by
    rw [List.append_assoc, List.getElem?_append_right (Nat.le_refl _)]
    simp
  have hset : (b0 ++ [x] ++ NUL :: rest).set b0.length NUL = b0 ++ NUL :: NUL :: rest := by
    rw [List.append_assoc, List.singleton_append, set_at_length]
  by_cases hamp : x = '&'
  · have hpc := pass_command_eq _ _ (b0 ++ NUL :: NUL :: rest) _ _ hcmd1 hlast hget
      (by rw [hamp]; simp only [beq_self_eq_true, if_true]; rw [← hamp]; exact hset)
    obtain ⟨buf, offs, h1, h2, h3, h4⟩ := tokenize_fields (b0 ++ NUL :: NUL :: rest)
    rw [h1, h2] at hpc
    refine ⟨_, hpc, ?_, ?_, ?_⟩
    · simp [hamp]
    · simp only [PassResult.argv, h3]
      rw [cstr_of_end _ _ hb0 (Or.inr ⟨_, rfl⟩)]
      simp [hamp]
    · simp [h4]
  · have hbeq : (x == '&') = false := by simpa using hamp
    have hpc := pass_command_eq _ _ (b0 ++ [x] ++ NUL :: rest) _ _ hcmd1 hlast hget
      (by rw [hbeq]; simp)
    obtain ⟨buf, offs, h1, h2, h3, h4⟩ := tokenize_fields (b0 ++ [x] ++ NUL :: rest)
    rw [h1, h2] at hpc
    refine ⟨_, hpc, ?_, ?_, ?_⟩
    · simp [hamp]
    · simp only [PassResult.argv, h3]
      rw [cstr_of_end _ _ hbn (Or.inr ⟨_, rfl⟩)]
      simp [hamp]
    · simp [h4]


theorem fields_all_sep (d : Char) (ds : List Char) (h : ∀ c ∈ ds, c = d) : fields d ds = [] := by
  have := fields_seps d ds [] h
  rw [List.append_nil] at this
  rw [this, fields_nil]

theorem fields_trailing (d : Char) (tok trail : List Char) (hne : tok ≠ [])
    (h : ∀ c ∈ tok, c ≠ d) (htrail : ∀ c ∈ trail, c = d) : fields d (tok ++ trail) = [tok] := by
  cases trail with
  | nil => rw [List.append_nil]; exact fields_single d tok hne h
  | cons c tr =>
    have hc : c = d := htrail c (by simp)
    subst hc
    rw [fields_token c tok tr hne h, fields_all_sep c tr (fun x hx => htrail x (by simp [hx]))]

theorem fields_spaced (ts : List (List Char)) :
    ∀ (gaps : List Nat) (trail : List Char),
      (∀ t ∈ ts, t ≠ [] ∧ ∀ c ∈ t, c ≠ ' ') → (∀ c ∈ trail, c = ' ') →
      fields ' ' (spaced ts gaps ++ trail) = ts := by
  induction ts with
  | nil =>
    intro gaps trail _ htrail
    simpa [spaced] using fields_all_sep ' ' trail htrail
  | cons t ts ih =>
    intro gaps trail hts htrail
    have ht := hts t (by simp)
    cases ts with
    | nil => simpa [spaced] using fields_trailing ' ' t trail ht.1 ht.2 htrail
    | cons t' ts' =>
      have hrest := ih gaps.tail trail (fun u hu => hts u (by simp [hu])) htrail
      have hshape : spaced (t :: t' :: ts') gaps ++ trail
          = t ++ ' ' :: (List.replicate (gaps.headD 0) ' ' ++ (spaced (t' :: ts') gaps.tail ++ trail)) := by
        simp [spaced, List.replicate_succ]
      rw [hshape, fields_token ' ' t _ ht.1 ht.2,
        fields_seps ' ' _ _ (fun c hc => (List.mem_replicate.1 hc).2), hrest]

theorem spaced_getLast (ts : List (List Char)) :
    ∀ (gaps : List Nat) (tl : List Char), (∀ t ∈ ts, t ≠ []) → ts.getLast? = some tl →
      (spaced ts gaps).getLast? = tl.getLast? := by
  induction ts with
  | nil => intro gaps tl _ h; simp at h
  | cons t ts ih =>
    intro gaps tl hts hl
    cases ts with
    | nil =>
      simp at hl
      subst hl
      simp [spaced]
    | cons t' ts' =>
      have hl' : (t' :: ts').getLast? = some tl := by simpa using hl
      have hrec := ih gaps.tail tl (fun u hu => hts u (by simp [hu])) hl'
      have hne : tl ≠ [] := hts tl (List.mem_of_getLast?_eq_some hl)
      have hsome : tl.getLast? = some (tl.getLast hne) := List.getLast?_eq_getLast _ hne
      simp only [spaced, List.getLast?_append, hrec, hsome, Option.or_some]


theorem mem_spaced (ts : List (List Char)) :
    ∀ (gaps : List Nat) (c : Char), c ∈ spaced ts gaps → c = ' ' ∨ ∃ t ∈ ts, c ∈ t := by
  induction ts with
  | nil => intro gaps c h; simp [spaced] at h
  | cons t ts ih =>
    intro gaps c h
    cases ts with
    | nil => exact Or.inr ⟨t, by simp, by simpa [spaced] using h⟩
    | cons t' ts' =>
      simp only [spaced, List.mem_append] at h
      rcases h with (h | h) | h
      · exact Or.inr ⟨t, by simp, h⟩
      · exact Or.inl (List.mem_replicate.1 h).2
      · rcases ih gaps.tail c h with h | ⟨u, hu, hc⟩
        · exact Or.inl h
        · exact Or.inr ⟨u, by simp [hu], hc⟩

theorem length_splitOnP {α : Type} (p : α → Bool) (l : List α) :
    (l.splitOnP p).length = l.countP p + 1 := by
  induction l with
  | nil => simp
  | cons a l ih =>
    rw [List.splitOnP_cons]
    by_cases h : p a = true
    · simp [h, ih]
    · have hlen : ∀ (xs : List (List α)), (List.modifyHead (List.cons a) xs).length = xs.length := by
        intro xs; cases xs <;> simp [List.modifyHead]
      simp [h, ih, hlen]

theorem length_fields_le (d : Char) (s : List Char) :
    (fields d s).length ≤ s.count d + 1 := by
  unfold fields List.splitOn
  refine le_trans (List.length_filter_le _ _) ?_
  rw [length_splitOnP]
  simp [List.count]

/-- The splitting loop on a terminated line: it ends within its fuel and the
stages are the fields of the line. -/
theorem split_commands_fields (line rest : List Char) (hl : ∀ c ∈ line, c ≠ NUL) :
    ∃ r, split_commands (line ++ NUL :: rest) = some r ∧ r.stages = fields '|' line ∧
      r.cmd.length = (line ++ NUL :: rest).length := by
  obtain ⟨suf', offs, h1, h2, h3, h4, h5, _⟩ :=
    strtokLoop_fields '|' (by decide) ((line ++ NUL :: rest).length + 1) [] (line ++ NUL :: rest) []
  have hp := h5 (by omega)
  have hcs : cstr (line ++ NUL :: rest) = line := cstr_of_end _ _ hl (Or.inr ⟨rest, rfl⟩)
  have hle : (fields '|' line).length ≤ (line ++ NUL :: rest).length + 1 := by
    refine le_trans (length_fields_le '|' line) ?_
    have := List.count_le_length '|' line
    simp
    omega
  refine ⟨⟨suf', offs⟩, ?_, ?_, ?_⟩
  · simp only [split_commands, split_fuel, hp]
    simp only [List.nil_append] at h1 h2
    rw [h1, h2]
  · simp only [SplitResult.stages]
    simp only [List.nil_append] at h3
    rw [h3, hcs, List.take_of_length_le hle]
  · simpa using h4

/-! ## Pipe table: lemmas -/

/-- C1 (the code departs from the claim): the line `echo hi | wc -w` is not
handed to the pipeline orchestrator. `pass_command` has already cut the
buffer after `echo`, so the pipe test of `main` sees no pipe symbol and the
line is launched as the single command `echo` with the arguments `hi`, `|`,
`wc`, `-w`. The orchestrator run on the raw line would have built the two
stage vectors `[echo, hi]` and `[wc, -w]`. -/
theorem pipe_line_launched_as_one_command :
    main_dispatch (line_buf "echo hi | wc -w\n" []) =
      Dispatch.launch
        ["echo".toList, "hi".toList, "|".toList, "wc".toList, "-w".toList] false ∧
    stage_vectors (line_buf "echo hi | wc -w" []) =
      some [some ["echo".toList, "hi".toList], some ["wc".toList, "-w".toList]] := by
  constructor <;> decide

theorem map_snd_show (xs : List (List Char)) :
    ((List.range xs.length).map (fun i => (i + 1, xs[i]?))).map Prod.snd = xs.map some := by
  apply List.ext_getElem?
  intro i
  simp only [List.getElem?_map, List.getElem?_range']
  by_cases h : i < xs.length
  · simp [List.getElem?_range h, List.getElem?_eq_getElem h]
  · have h' : xs.length ≤ i := Nat.le_of_not_lt h
    rw [List.getElem?_eq_none (by simpa using h'), List.getElem?_eq_none (by simpa using h')]
    rfl

theorem map_fst_show (xs : List (List Char)) (m : Nat) :
    ((List.range m).map (fun i => (i + 1, xs[i]?))).map Prod.fst = List.range' 1 m := by
  rw [List.map_map, List.range_eq_range', List.map_congr_left (g := fun i => i + 1) (by simp)]
  apply List.ext_getElem?
  intro i
  by_cases h : i < m
  · simp [List.getElem?_range', h]; omega
  · have h' : m ≤ i := Nat.le_of_not_lt h
    rw [List.getElem?_eq_none (by simpa using h'), List.getElem?_eq_none (by simpa using h')]

theorem length_last_lines (lines : List (List Char)) :
    (last_lines lines).length = min lines.length HISTORY_SIZE := by
  simp [last_lines]; omega

theorem show_history_snd (lines : List (List Char)) :
    (show_history (record_all lines)).map Prod.snd = (last_lines lines).map some := by
  rw [show_history_record_all, ← length_last_lines, map_snd_show]

/-- C2: after recording any sequence of `N` lines into the empty history,
`show_history` lists exactly the last `min N HISTORY_SIZE` of them, in the
order recorded, numbered `1, 2, ..., min N HISTORY_SIZE`; and recording a line
when the buffer is full drops the entry displayed first and puts the new line
last. -/
theorem show_history_lists_last_lines (lines : List (List Char)) :
    (show_history (record_all lines)).map Prod.snd
        = (lines.drop (lines.length - min lines.length HISTORY_SIZE)).map some ∧
    (show_history (record_all lines)).map Prod.fst
        = List.range' 1 (min lines.length HISTORY_SIZE) ∧
    ∀ l, (record_all lines).count = HISTORY_SIZE →
      (show_history (add_history (record_all lines) l)).map Prod.snd
        = ((show_history (record_all lines)).map Prod.snd).drop 1 ++ [some l] := by
  have hsub : lines.length - min lines.length HISTORY_SIZE = lines.length - HISTORY_SIZE := by
    omega
  refine ⟨?_, ?_, ?_⟩
  · rw [hsub]; exact show_history_snd lines
  · rw [show_history_record_all, map_fst_show]
  · intro l hfull
    have hge : HISTORY_SIZE ≤ lines.length := by
      have := (record_all_inv lines).1
      omega
    have hstep : add_history (record_all lines) l = record_all (lines ++ [l]) := by
      simp [record_all, List.foldl_append]
    have hpos : 0 < HISTORY_SIZE := by decide
    rw [hstep, show_history_snd, show_history_snd]
    unfold last_lines
    rw [← List.map_drop, List.drop_drop, ← List.map_singleton (f := some), ← List.map_append]
    congr 1
    have h1 : (lines ++ [l]).length - HISTORY_SIZE = lines.length - HISTORY_SIZE + 1 := by
      simp; omega
    rw [h1, List.drop_append_of_le_length (by omega)]

/-- C2, at a full buffer: a hundred recorded lines, then one more. -/
theorem show_history_lists_last_lines_witness :
    (record_all (List.replicate 100 ['a'])).count = HISTORY_SIZE ∧
    (show_history (add_history (record_all (List.replicate 100 ['a'])) ['b'])).map Prod.snd
      = ((show_history (record_all (List.replicate 100 ['a']))).map Prod.snd).drop 1
          ++ [some ['b']] :=
  ⟨(record_all_inv _).1.trans (by decide),
   (show_history_lists_last_lines (List.replicate 100 ['a'])).2.2 ['b']
     ((record_all_inv _).1.trans (by decide))⟩


theorem spaced_body_chars (ts : List (List Char)) (gaps : List Nat) (lead : Nat)
    (trail : List Char)
    (hts : ∀ t ∈ ts, t ≠ [] ∧ ∀ c ∈ t, c ≠ ' ' ∧ c ≠ '\n' ∧ c ≠ NUL)
    (htrail : ∀ c ∈ trail, c ≠ NUL ∧ c ≠ '\n') :
    ∀ c ∈ List.replicate lead ' ' ++ spaced ts gaps ++ trail, c ≠ NUL ∧ c ≠ '\n' := by
  intro c hc
  simp only [List.mem_append] at hc
  rcases hc with (hc | hc) | hc
  · rw [(List.mem_replicate.1 hc).2]; decide
  · rcases mem_spaced ts gaps c hc with h | ⟨t, ht, hct⟩
    · rw [h]; decide
    · exact ⟨((hts t ht).2 c hct).2.2, ((hts t ht).2 c hct).2.1⟩
  · exact htrail c hc

/-- C3: for 1 to 99 non-empty tokens free of space, newline and NUL, the last
one not ending in `&`, `pass_command` on a line made of the tokens separated
by runs of one or more spaces, with optional leading and trailing spaces and
a final newline, returns exactly the tokens with the background flag off; on
the tokens followed by ` &` and a newline it returns exactly the tokens with
the flag on. In particular `ls -la` gives `[ls, -la]`, flag off, and
`sleep 5 &` gives `[sleep, 5]`, flag on. -/
theorem pass_command_spaced_tokens (ts : List (List Char)) (gaps : List Nat)
    (lead trail : Nat) (rest : List Char)
    (hn : 1 ≤ ts.length ∧ ts.length ≤ 99)
    (hts : ∀ t ∈ ts, t ≠ [] ∧ ∀ c ∈ t, c ≠ ' ' ∧ c ≠ '\n' ∧ c ≠ NUL)
    (hlast : ∀ tl, ts.getLast? = some tl → tl.getLast? ≠ some '&')
    (hlen : lead + (spaced ts gaps).length + trail + 2 < SIZE_MOD) :
    (∃ r, pass_command (List.replicate lead ' ' ++ spaced ts gaps ++ List.replicate trail ' '
            ++ '\n' :: rest) = some r ∧
        r.argv = ts ∧ r.is_background = false) ∧
    (∃ r, pass_command (List.replicate lead ' ' ++ spaced ts gaps ++ [' ', '&']
            ++ '\n' :: rest) = some r ∧
        r.argv = ts ∧ r.is_background = true) ∧
    (pass_command (line_buf "ls -la\n" [])).map (fun r => (r.argv, r.is_background))
      = some (["ls".toList, "-la".toList], false) ∧
    (pass_command (line_buf "sleep 5 &\n" [])).map (fun r => (r.argv, r.is_background))
      = some (["sleep".toList, "5".toList], true) := by
  have hts' : ∀ t ∈ ts, t ≠ [] ∧ ∀ c ∈ t, c ≠ ' ' :=
    fun t ht => ⟨(hts t ht).1, fun c hc => ((hts t ht).2 c hc).1⟩
  have htake : ts.take MAX_ARGS = ts := List.take_of_length_le (by simp [MAX_ARGS]; omega)
  have hne : ts ≠ [] := by
    intro h; rw [h] at hn; simp at hn
  obtain ⟨tl, htl⟩ : ∃ tl, ts.getLast? = some tl :=
    ⟨ts.getLast hne, List.getLast?_eq_getLast _ hne⟩
  have htlne : tl ≠ [] := (hts tl (List.mem_of_getLast?_eq_some htl)).1
  have hsl := spaced_getLast ts gaps tl (fun t ht => (hts t ht).1) htl
  have hspne : spaced ts gaps ≠ [] := by
    intro h
    rw [h] at hsl
    simp at hsl
    exact htlne (List.getLast?_eq_none_iff.1 hsl.symm)
  refine ⟨?_, ?_, by decide, by decide⟩
  · have hb := spaced_body_chars ts gaps lead (List.replicate trail ' ') hts
      (fun c hc => by rw [(List.mem_replicate.1 hc).2]; decide)
    obtain ⟨r, h1, h2, h3, _⟩ := pass_command_body
      (List.replicate lead ' ' ++ spaced ts gaps ++ List.replicate trail ' ') rest '\n'
      (Or.inl rfl) hb (by simp [hspne]) (by simp; omega)
    have hamp : (List.replicate lead ' ' ++ spaced ts gaps ++ List.replicate trail ' ').getLast?
        ≠ some '&' := by
      rw [List.getLast?_append, List.getLast?_replicate]
      by_cases ht0 : trail = 0
      · simp only [ht0, if_true, Option.none_or]
        have hl := hlast tl htl
        rw [List.getLast?_append, hsl]
        rw [List.getLast?_eq_getLast _ htlne] at hl ⊢
        simpa [Option.or] using hl
      · simp [ht0]
    refine ⟨r, h1, ?_, ?_⟩
    · rw [h3, if_neg hamp, List.append_assoc,
        fields_seps ' ' _ _ (fun c hc => (List.mem_replicate.1 hc).2),
        fields_spaced ts gaps _ hts' (fun c hc => (List.mem_replicate.1 hc).2), htake]
    · rw [h2]; simpa using hamp
  · have hb := spaced_body_chars ts gaps lead [' ', '&'] hts
      (fun c hc => by
        simp at hc
        rcases hc with rfl | rfl <;> decide)
    obtain ⟨r, h1, h2, h3, _⟩ := pass_command_body
      (List.replicate lead ' ' ++ spaced ts gaps ++ [' ', '&']) rest '\n'
      (Or.inl rfl) hb (by simp) (by simp; omega)
    have hamp : (List.replicate lead ' ' ++ spaced ts gaps ++ [' ', '&']).getLast?
        = some '&' := by
      rw [List.getLast?_append]; rfl
    have hdrop : (List.replicate lead ' ' ++ spaced ts gaps ++ [' ', '&']).dropLast
        = List.replicate lead ' ' ++ (spaced ts gaps ++ [' ']) := by
      have : List.replicate lead ' ' ++ spaced ts gaps ++ [' ', '&']
          = (List.replicate lead ' ' ++ (spaced ts gaps ++ [' '])) ++ ['&'] := by simp
      rw [this, List.dropLast_concat]
    refine ⟨r, h1, ?_, ?_⟩
    · rw [h3, if_pos hamp, hdrop,
        fields_seps ' ' _ _ (fun c hc => (List.mem_replicate.1 hc).2),
        fields_spaced ts gaps _ hts' (fun c hc => by simpa using hc), htake]
    · rw [h2, hamp]; rfl

/-- C3 at `ls -la`, written with two leading spaces, a gap of three spaces
and one trailing space. -/
theorem pass_command_spaced_tokens_witness :
    (∃ r, pass_command (List.replicate 2 ' ' ++ spaced ["ls".toList, "-la".toList] [2]
            ++ List.replicate 1 ' ' ++ '\n' :: [NUL]) = some r ∧
        r.argv = ["ls".toList, "-la".toList] ∧ r.is_background = false) ∧
    (∃ r, pass_command (List.replicate 2 ' ' ++ spaced ["ls".toList, "-la".toList] [2]
            ++ [' ', '&'] ++ '\n' :: [NUL]) = some r ∧
        r.argv = ["ls".toList, "-la".toList] ∧ r.is_background = true) :=
  have h := pass_command_spaced_tokens ["ls".toList, "-la".toList] [2] 2 1 [NUL]
    (by decide) (by decide) (by decide) (by decide)
  ⟨h.1, h.2.1⟩


/-- C4 (the code departs from the claim): on a line that is empty before its
terminator (`"\n"` or the empty string) the string left after the newline is
cut has length 0, the index `strlen(cmd) - 1` wraps to the largest `size_t`
value, and the byte read by the background test lies outside every buffer of
at most `MAX_CMD_LEN` bytes: `pass_command` has no defined result there. -/
theorem pass_command_empty_line_reads_outside (cmd rest : List Char)
    (hcmd : cmd = '\n' :: rest ∨ cmd = NUL :: rest) (hlen : cmd.length ≤ MAX_CMD_LEN) :
    strlen (cmd.set (strcspn cmd ['\n']) NUL) = 0 ∧
    last_index (cmd.set (strcspn cmd ['\n']) NUL) = SIZE_MOD - 1 ∧
    ¬ (last_index (cmd.set (strcspn cmd ['\n']) NUL) < cmd.length) ∧
    pass_command cmd = none := by
  have hstrip : cmd.set (strcspn cmd ['\n']) NUL = NUL :: rest := by
    rcases hcmd with rfl | rfl <;> simp [strcspn, NUL]
  have hs : strlen (NUL :: rest) = 0 := by simp [strlen, cstr_nul]
  have hli : last_index (NUL :: rest) = SIZE_MOD - 1 := by
    simp [last_index, hs, SIZE_MOD]
  have hout : ¬ (SIZE_MOD - 1 < cmd.length) := by
    have : MAX_CMD_LEN < SIZE_MOD - 1 := by decide
    omega
  have hlen' : (NUL :: rest).length = cmd.length := by
    rcases hcmd with rfl | rfl <;> simp
  refine ⟨by rw [hstrip, hs], by rw [hstrip, hli], by rw [hstrip, hli]; exact hout, ?_⟩
  unfold pass_command
  simp only [hstrip, hli]
  rw [List.getElem?_eq_none (by rw [hlen']; omega)]

/-- C4 at the buffers `fgets` leaves for an empty line and for no character
at all. -/
theorem pass_command_empty_line_reads_outside_witness :
    (pass_command (line_buf "\n" []) = none ∧ pass_command (line_buf "" []) = none) ∧
    last_index ((line_buf "\n" []).set (strcspn (line_buf "\n" []) ['\n']) NUL)
      = SIZE_MOD - 1 :=
  ⟨⟨(pass_command_empty_line_reads_outside (line_buf "\n" []) [NUL] (Or.inl rfl)
      (by decide)).2.2.2,
    (pass_command_empty_line_reads_outside (line_buf "" []) [] (Or.inr rfl)
      (by decide)).2.2.2⟩,
   (pass_command_empty_line_reads_outside (line_buf "\n" []) [NUL] (Or.inl rfl)
      (by decide)).2.1⟩

/-- C5: on a line whose text before the terminator is non-empty,
`pass_command` sets the background flag exactly when the last character of
that text is `&`; then the tokens are the space-separated fields of the text
without that one character, and otherwise of the whole text, so that any
other `&` stays a token character. `a & b` gives `[a, &, b]` with the flag
off, `sleep 5 & ` with a trailing space gives `[sleep, 5, &]` with the flag
off, and `a&&` gives `[a&]` with the flag on. -/
theorem background_flag_iff_last_char (body rest : List Char) (t : Char)
    (ht : t = '\n' ∨ t = NUL) (hb : ∀ c ∈ body, c ≠ NUL ∧ c ≠ '\n') (hne : body ≠ [])
    (hlen : body.length < SIZE_MOD) :
    (∃ r, pass_command (body ++ t :: rest) = some r ∧
      (r.is_background = true ↔ body.getLast? = some '&') ∧
      (body.getLast? = some '&' → r.argv = (fields ' ' body.dropLast).take MAX_ARGS) ∧
      (body.getLast? ≠ some '&' → r.argv = (fields ' ' body).take MAX_ARGS)) ∧
    (pass_command (line_buf "a & b\n" [])).map (fun r => (r.argv, r.is_background))
      = some (["a".toList, "&".toList, "b".toList], false) ∧
    (pass_command (line_buf "sleep 5 & \n" [])).map (fun r => (r.argv, r.is_background))
      = some (["sleep".toList, "5".toList, "&".toList], false) ∧
    (pass_command (line_buf "a&&\n" [])).map (fun r => (r.argv, r.is_background))
      = some (["a&".toList], true) := by
  refine ⟨?_, by decide, by decide, by decide⟩
  obtain ⟨r, h1, h2, h3, _⟩ := pass_command_body body rest t ht hb hne hlen
  refine ⟨r, h1, ?_, ?_, ?_⟩
  · rw [h2]; simp
  · intro h; rw [h3, if_pos h]
  · intro h; rw [h3, if_neg h]

/-- C5 at the line `x &`. -/
theorem background_flag_iff_last_char_witness :
    ∃ r, pass_command ("x &".toList ++ '\n' :: [NUL]) = some r ∧
      (r.is_background = true ↔ "x &".toList.getLast? = some '&') ∧
      ("x &".toList.getLast? = some '&' →
        r.argv = (fields ' ' "x &".toList.dropLast).take MAX_ARGS) ∧
      ("x &".toList.getLast? ≠ some '&' →
        r.argv = (fields ' ' "x &".toList).take MAX_ARGS) :=
  (background_flag_iff_last_char "x &".toList [NUL] '\n' (Or.inl rfl) (by decide) (by decide)
    (by decide)).1

theorem mem_intercalate (sep : List Char) (ls : List (List Char)) (c : Char)
    (h : c ∈ sep.intercalate ls) : c ∈ sep ∨ ∃ l ∈ ls, c ∈ l := by
  induction ls with
  | nil => simp [List.intercalate] at h
  | cons a ls ih =>
    cases ls with
    | nil =>
      simp [List.intercalate] at h
      exact Or.inr ⟨a, by simp, h⟩
    | cons b ls =>
      have hshape : sep.intercalate (a :: b :: ls) = a ++ sep ++ sep.intercalate (b :: ls) := by
        simp [List.intercalate, List.intersperse]
      rw [hshape] at h
      simp only [List.mem_append] at h
      rcases h with (h | h) | h
      · exact Or.inr ⟨a, by simp, h⟩
      · exact Or.inl h
      · rcases ih h with h | ⟨l, hl, hc⟩
        · exact Or.inl h
        · exact Or.inr ⟨l, by simp [hl], hc⟩

theorem fields_intercalate (d : Char) (strs : List (List Char)) (hne : strs ≠ [])
    (hs : ∀ s ∈ strs, s ≠ [] ∧ ∀ c ∈ s, c ≠ d) :
    fields d ([d].intercalate strs) = strs := by
  unfold fields
  rw [List.splitOn_intercalate strs d (fun l hl hd => (hs l hl).2 d hd rfl) hne]
  rw [List.filter_eq_self]
  intro s hs'
  have := (hs s hs').1
  cases s with
  | nil => exact absurd rfl this
  | cons a t => simp

/-- C7: for 1 to 10 non-empty strings free of `|` and NUL, the splitting loop
of `execute_piped_commands`, run on the strings joined by `|`, stores exactly
those strings, in order and unchanged (surrounding spaces included), at the
indices `0 .. n-1` of `commands`; a line without a pipe symbol gives the one
stage equal to the line; and `a | b | c` gives the stages `a `, ` b `, ` c`. -/
theorem split_returns_joined_stages (strs : List (List Char)) (rest : List Char)
    (hn : 1 ≤ strs.length ∧ strs.length ≤ 10)
    (hs : ∀ s ∈ strs, s ≠ [] ∧ ∀ c ∈ s, c ≠ '|' ∧ c ≠ NUL) :
    (∃ r, split_commands (['|'].intercalate strs ++ NUL :: rest) = some r ∧
      r.stages = strs ∧ r.num_commands = strs.length ∧ ∀ i ∈ r.written, i < MAX_COMMANDS) ∧
    (∀ line, strs = [line] →
      ∃ r, split_commands (line ++ NUL :: rest) = some r ∧ r.stages = [line]) ∧
    (split_commands (line_buf "a | b | c" [])).map SplitResult.stages
      = some ["a ".toList, " b ".toList, " c".toList] := by
  have hne : strs ≠ [] := by
    intro h; rw [h] at hn; simp at hn
  have hnul : ∀ c ∈ ['|'].intercalate strs, c ≠ NUL := by
    intro c hc
    rcases mem_intercalate _ _ c hc with h | ⟨l, hl, hcl⟩
    · simp at h; rw [h]; decide
    · exact ((hs l hl).2 c hcl).2
  obtain ⟨r, h1, h2, _⟩ := split_commands_fields (['|'].intercalate strs) rest hnul
  have hst : r.stages = strs := by
    rw [h2, fields_intercalate '|' strs hne
      (fun s hs' => ⟨(hs s hs').1, fun c hc => ((hs s hs').2 c hc).1⟩)]
  have hnum : r.num_commands = strs.length := by
    rw [← hst]; simp [SplitResult.num_commands, SplitResult.stages]
  refine ⟨⟨r, h1, hst, hnum, ?_⟩, ?_, by decide⟩
  · intro i hi
    simp only [SplitResult.written, List.mem_range] at hi
    simp only [SplitResult.num_commands] at hnum
    simp only [MAX_COMMANDS]
    omega
  · intro line hline
    subst hline
    refine ⟨r, ?_, hst⟩
    simpa [List.intercalate] using h1

/-- C7 at the two stages `ls ` and ` wc`. -/
theorem split_returns_joined_stages_witness :
    ∃ r, split_commands (['|'].intercalate ["ls ".toList, " wc".toList] ++ NUL :: []) = some r ∧
      r.stages = ["ls ".toList, " wc".toList] ∧ r.num_commands = 2 ∧
      ∀ i ∈ r.written, i < MAX_COMMANDS :=
  (split_returns_joined_stages ["ls ".toList, " wc".toList] [] (by decide) (by decide)).1

/-- C8 (the claim fails as stated): empty stages are not passed through.
`a||b` has two pipe symbols and gives the two stages `a`, `b`; `|a` gives the
one stage `a`; `|` gives no stage at all. -/
theorem split_drops_empty_stages :
    (split_commands (line_buf "a||b" [])).map SplitResult.stages
      = some ["a".toList, "b".toList] ∧
    (split_commands (line_buf "a||b" [])).map SplitResult.stages
      ≠ some ["a".toList, [], "b".toList] ∧
    (split_commands (line_buf "|a" [])).map SplitResult.stages = some ["a".toList] ∧
    (split_commands (line_buf "|" [])).map SplitResult.stages = some [] ∧
    ¬ (∀ r, split_commands (line_buf "|" []) = some r → 1 ≤ r.num_commands) := by
  refine ⟨by decide, by decide, by decide, by decide, ?_⟩
  intro h
  have := h ⟨['|', NUL], []⟩ (by decide)
  simp [SplitResult.num_commands] at this

/-- C8 as amended: on a line with `k` pipe symbols, `k + 1 ≤ 10`, the
splitting loop stores exactly the non-empty substrings between consecutive
pipe symbols, in order; empty ones are dropped, so there are at most `k + 1`
stages (possibly none), all stored inside `commands`. -/
theorem split_returns_nonempty_pieces (line rest : List Char)
    (hl : ∀ c ∈ line, c ≠ NUL) (hk : line.count '|' + 1 ≤ MAX_COMMANDS) :
    ∃ r, split_commands (line ++ NUL :: rest) = some r ∧
      r.stages = (line.splitOn '|').filter (fun s => !s.isEmpty) ∧
      r.num_commands ≤ line.count '|' + 1 ∧
      ∀ i ∈ r.written, i < MAX_COMMANDS := by
  obtain ⟨r, h1, h2, _⟩ := split_commands_fields line rest hl
  have hnum : r.num_commands ≤ line.count '|' + 1 := by
    have : r.num_commands = r.stages.length := by
      simp [SplitResult.num_commands, SplitResult.stages]
    rw [this, h2]
    exact length_fields_le '|' line
  refine ⟨r, h1, h2, hnum, ?_⟩
  intro i hi
  simp only [SplitResult.written, List.mem_range] at hi
  simp only [SplitResult.num_commands] at hnum
  omega

/-- C8 as amended, at the line `a||b`. -/
theorem split_returns_nonempty_pieces_witness :
    ∃ r, split_commands ("a||b".toList ++ NUL :: []) = some r ∧
      r.stages = ("a||b".toList.splitOn '|').filter (fun s => !s.isEmpty) ∧
      r.num_commands ≤ "a||b".toList.count '|' + 1 ∧
      ∀ i ∈ r.written, i < MAX_COMMANDS :=
  split_returns_nonempty_pieces "a||b".toList [] (by decide) (by decide)

/-- C9 (the code departs from the claim): the splitting loop has no bound.
The line `a|b|c|d|e|f|g|h|i|j|k` reaches `execute_piped_commands` from `main`
and makes the loop store eleven stages, the last one at index 10 of the
ten-element array `commands`. -/
theorem split_writes_past_commands :
    main_dispatch (line_buf "a|b|c|d|e|f|g|h|i|j|k\n" [])
      = Dispatch.piped "a|b|c|d|e|f|g|h|i|j|k".toList ∧
    (split_commands (line_buf "a|b|c|d|e|f|g|h|i|j|k" [])).map SplitResult.written
      = some [0, 1, 2, 3, 4, 5, 6, 7, 8, 9, 10] ∧
    (split_commands (line_buf "a|b|c|d|e|f|g|h|i|j|k" [])).map SplitResult.num_commands
      = some 11 ∧
    ¬ (10 < MAX_COMMANDS) := by
  refine ⟨by decide, by decide, by decide, by decide⟩


theorem pipes_phase_ok (sys_pipe : Nat → Option (Nat × Nat)) (k : Nat) :
    ∀ i, (∀ j, i ≤ j → j < i + k → (sys_pipe j).isSome = true) →
      pipes_phase sys_pipe k i = ((List.range' i k).map Event.pipe, true) := by
  induction k with
  | zero => intro i _; rfl
  | succ k ih =>
    intro i h
    have hi := h i (Nat.le_refl _) (by omega)
    obtain ⟨v, hv⟩ := Option.isSome_iff_exists.1 hi
    simp only [pipes_phase, hv, ih (i + 1) (fun j h1 h2 => h j (by omega) (by omega))]
    simp [List.range'_succ]

theorem spawn_phase_ok (sys_fork : Nat → Option Nat) (k : Nat) :
    ∀ i, (∀ j, i ≤ j → j < i + k → (sys_fork j).isSome = true) →
      spawn_phase sys_fork k i = (List.replicate k Event.fork, true) := by
  induction k with
  | zero => intro i _; rfl
  | succ k ih =>
    intro i h
    have hi := h i (Nat.le_refl _) (by omega)
    obtain ⟨v, hv⟩ := Option.isSome_iff_exists.1 hi
    simp only [spawn_phase, hv, ih (i + 1) (fun j h1 h2 => h j (by omega) (by omega))]
    simp [List.replicate_succ]

/-- The calls of the orchestrating process when every `pipe` and every
`fork` succeeds. -/
theorem orchestrate_ok (sys_pipe : Nat → Option (Nat × Nat)) (sys_fork : Nat → Option Nat)
    (N : Nat) (hp : ∀ j, j < N - 1 → (sys_pipe j).isSome = true)
    (hf : ∀ i, i < N → (sys_fork i).isSome = true) :
    orchestrate sys_pipe sys_fork N =
      ((List.range (N - 1)).map Event.pipe ++ List.replicate N Event.fork
        ++ close_phase N ++ wait_phase N, Outcome.returned) := by
  have h1 := pipes_phase_ok sys_pipe (N - 1) 0 (fun j _ hj => hp j (by omega))
  have h2 := spawn_phase_ok sys_fork N 0 (fun j _ hj => hf j (by omega))
  simp only [orchestrate, h1, h2, if_true, List.range_eq_range']

/-- C12: in a pipeline of `N` stages whose `pipe` and `fork` calls all
succeed, the orchestrating process makes, after the pipe creation, exactly
`N` `fork` calls, then the `2(N-1)` `close` calls, then exactly `N` `wait`
calls, in that order and nothing else, and then returns to its caller. -/
theorem orchestrator_spawns_closes_waits (sys_pipe : Nat → Option (Nat × Nat))
    (sys_fork : Nat → Option Nat) (N : Nat)
    (hp : ∀ j, j < N - 1 → (sys_pipe j).isSome = true)
    (hf : ∀ i, i < N → (sys_fork i).isSome = true) :
    (orchestrate sys_pipe sys_fork N).1 =
      (List.range (N - 1)).map Event.pipe ++
        (List.replicate N Event.fork ++
          ((List.range (2 * (N - 1))).map Event.close ++ List.replicate N Event.wait)) ∧
    (orchestrate sys_pipe sys_fork N).2 = Outcome.returned := by
  rw [orchestrate_ok sys_pipe sys_fork N hp hf]
  simp [close_phase, wait_phase]

/-- C12 at a pipeline of three stages. -/
theorem orchestrator_spawns_closes_waits_witness :
    (orchestrate Sys.all_ok.sys_pipe Sys.all_ok.sys_fork 3).1 =
      (List.range (3 - 1)).map Event.pipe ++
        (List.replicate 3 Event.fork ++
          ((List.range (2 * (3 - 1))).map Event.close ++ List.replicate 3 Event.wait)) ∧
    (orchestrate Sys.all_ok.sys_pipe Sys.all_ok.sys_fork 3).2 = Outcome.returned :=
  orchestrator_spawns_closes_waits Sys.all_ok.sys_pipe Sys.all_ok.sys_fork 3
    (fun _ _ => rfl) (fun _ _ => rfl)

/-- C13: in `launch`, when `fork` succeeds the parent makes exactly one
`waitpid` on the child if the background flag is off, and with the flag on it
prints one line holding the child's identifier and waits for nothing; when
`fork` fails it reports the error, waits for nothing and returns. -/
theorem launch_waits_iff_foreground (args : List (List Char)) (is_background exec_ok : Bool)
    (pid : Nat) :
    launch args false (ForkResult.parent pid) exec_ok
      = ([Event.fork, Event.waitpid pid], Outcome.returned) ∧
    launch args true (ForkResult.parent pid) exec_ok
      = ([Event.fork,
          Event.print ("Process running in background with PID: " ++ toString pid ++ "\n")],
         Outcome.returned) ∧
    ((launch args is_background (ForkResult.parent pid) exec_ok).1.count (Event.waitpid pid) = 1
      ↔ is_background = false) ∧
    (∀ e ∈ (launch args is_background (ForkResult.parent pid) exec_ok).1,
      e ≠ Event.wait ∧ ∀ p, e = Event.waitpid p → p = pid ∧ is_background = false) ∧
    launch args is_background ForkResult.failed exec_ok
      = ([Event.fork, Event.perror "Failed to fork"], Outcome.returned) := by
  refine ⟨rfl, rfl, ?_, ?_, rfl⟩
  · cases is_background <;> simp [launch]
  · cases is_background <;> simp [launch]


/-- C13 at the vector `[ls]`, background flag on, child identifier 100. -/
theorem launch_waits_iff_foreground_witness :
    launch ["ls".toList] true (ForkResult.parent 100) true
      = ([Event.fork, Event.print "Process running in background with PID: 100\n"],
         Outcome.returned) ∧
    ((launch ["ls".toList] true (ForkResult.parent 100) true).1.count (Event.waitpid 100) = 1
      ↔ true = false) :=
  ⟨(launch_waits_iff_foreground ["ls".toList] true true 100).2.1,
   (launch_waits_iff_foreground ["ls".toList] true true 100).2.2.1⟩

/-- C15 (the code departs from the claim): token 0 of an empty argument
vector is read. On the line of three spaces `pass_command` returns an empty
vector and `main` hands the null `args[0]` to `strcmp`; the same happens on
the empty line. On ` |b` the first stage is one space, its vector is empty
and its child hands the null `args[0]` to `execvp`. -/
theorem token0_read_from_empty_vector :
    (pass_command (line_buf "   \n" [])).map PassResult.argv = some [] ∧
    main_dispatch (line_buf "   \n" []) = Dispatch.undefined ∧
    main_dispatch (line_buf "\n" []) = Dispatch.undefined ∧
    (main_iteration Sys.all_ok History.empty (line_buf "   \n" [])).2.2 = Control.undefined ∧
    main_dispatch (line_buf " |b\n" []) = Dispatch.piped " |b".toList ∧
    stage_vectors (line_buf " |b" []) = some [some [], some ["b".toList]] ∧
    (child_stage 2 0 [] true true false).1 =
      [Event.dup2 1 1, Event.close 0, Event.close 1, Event.execvp [],
        Event.perror "Error executing command", Event.exit_failure] := by
  refine ⟨by decide, by decide, by decide, by decide, by decide, by decide, by decide⟩

theorem main_iteration_history (sys : Sys) (h : History) (cmd : List Char) :
    (main_iteration sys h cmd).1 = add_history h (cstr cmd) := by
  unfold main_iteration
  simp only
  split
  · rfl
  · rfl
  · rfl
  · split <;> rfl
  · rfl
  · rfl

theorem main_loop_history (inputs : List (Sys × List Char)) :
    ∀ h : History, ∃ k, k ≤ inputs.length ∧
      (main_loop h inputs).1 = ((inputs.take k).map (fun p => cstr p.2)).foldl add_history h := by
  induction inputs with
  | nil => intro h; exact ⟨0, Nat.le_refl _, rfl⟩
  | cons p rest ih =>
    intro h
    obtain ⟨sys, cmd⟩ := p
    cases hc : (main_iteration sys h cmd).2.2 with
    | next_line =>
      obtain ⟨k, hk, hrec⟩ := ih (main_iteration sys h cmd).1
      refine ⟨k + 1, by simpa using hk, ?_⟩
      rw [main_iteration_history] at hrec
      simp only [main_loop, hc, main_iteration_history]
      rw [hrec]
      simp
    | leave_loop =>
      exact ⟨1, by simp, by simp [main_loop, hc, main_iteration_history]⟩
    | ended =>
      exact ⟨1, by simp, by simp [main_loop, hc, main_iteration_history]⟩
    | image_replaced =>
      exact ⟨1, by simp, by simp [main_loop, hc, main_iteration_history]⟩
    | undefined =>
      exact ⟨1, by simp, by simp [main_loop, hc, main_iteration_history]⟩

theorem show_history_getLast (lines : List (List Char)) (l : List Char) :
    (show_history (record_all (lines ++ [l]))).getLast?
      = some (min (lines.length + 1) HISTORY_SIZE, some l) := by
  rw [show_history_record_all]
  have hlen : (lines ++ [l]).length = lines.length + 1 := by simp
  have hpos : 0 < HISTORY_SIZE := by decide
  obtain ⟨m, hm⟩ : ∃ m, min (lines.length + 1) HISTORY_SIZE = m + 1 :=
    ⟨min (lines.length + 1) HISTORY_SIZE - 1, by omega⟩
  have hll : last_lines (lines ++ [l]) = lines.drop (lines.length + 1 - HISTORY_SIZE) ++ [l] := by
    unfold last_lines
    rw [hlen, List.drop_append_of_le_length (by omega)]
  have hget : (last_lines (lines ++ [l]))[m]? = some l := by
    rw [hll, List.getElem?_append_right (by simp; omega)]
    have : m - (lines.drop (lines.length + 1 - HISTORY_SIZE)).length = 0 := by
      simp; omega
    rw [this]
    rfl
  rw [hlen, hm, List.range_succ, List.map_append, List.getLast?_append]
  simp [hget]

/-- C17: every iteration of the loop of `main` records the line read, as
read, exactly once and whatever the dispatch does with it; the lines of a run
are recorded in the order read; and on the line `history` the listing printed
is the one of the history that already holds that line, as its last entry. -/
theorem raw_line_recorded_before_dispatch :
    (∀ sys h cmd, (main_iteration sys h cmd).1 = add_history h (cstr cmd)) ∧
    (∀ sys h line rest, (∀ c ∈ line, c ≠ NUL) →
      (main_iteration sys h (line ++ NUL :: rest)).1 = add_history h line) ∧
    (∀ h inputs, ∃ k, k ≤ inputs.length ∧
      (main_loop h inputs).1 = ((inputs.take k).map (fun p => cstr p.2)).foldl add_history h) ∧
    (∀ sys lines rest,
      (main_iteration sys (record_all lines) ("history\n".toList ++ NUL :: rest)).2 =
        ([Event.print_history (show_history (record_all (lines ++ ["history\n".toList])))],
          Control.next_line) ∧
      (show_history (record_all (lines ++ ["history\n".toList]))).getLast?
        = some (min (lines.length + 1) HISTORY_SIZE, some "history\n".toList)) := by
  refine ⟨main_iteration_history, ?_, fun h inputs => main_loop_history inputs h, ?_⟩
  · intro sys h line rest hl
    rw [main_iteration_history, cstr_of_end line _ hl (Or.inr ⟨rest, rfl⟩)]
  · intro sys lines rest
    refine ⟨?_, show_history_getLast lines _⟩
    have hc : cstr ("history\n".toList ++ NUL :: rest) = "history\n".toList :=
      cstr_of_end _ _ (by decide) (Or.inr ⟨rest, rfl⟩)
    have hd : main_dispatch ("history\n".toList ++ NUL :: rest) = Dispatch.history := by
      unfold main_dispatch
      rw [hc]
      rfl
    have hstep : add_history (record_all lines) "history\n".toList
        = record_all (lines ++ ["history\n".toList]) := by
      simp [record_all, List.foldl_append]
    simp only [main_iteration, hd, hc, hstep]

/-- C17 at the line `ls -l`, read into a buffer with stale bytes after its
terminator. -/
theorem raw_line_recorded_before_dispatch_witness :
    (main_iteration Sys.all_ok History.empty ("ls -l\n".toList ++ NUL :: ['x', 'y'])).1
      = add_history History.empty "ls -l\n".toList :=
  raw_line_recorded_before_dispatch.2.1 Sys.all_ok History.empty "ls -l\n".toList ['x', 'y']
    (by decide)

/-- C19: along any sequence of `add_history` calls from the empty history
`count` stays at most `HISTORY_SIZE`; a call made with `count` below
`HISTORY_SIZE` raises it by exactly one; a call made with `count` equal to
`HISTORY_SIZE` leaves it there, and afterwards each of the `HISTORY_SIZE`
slots holds one of the lines recorded. -/
theorem add_history_keeps_count_bounded (lines : List (List Char)) (l : List Char) :
    (record_all lines).count ≤ HISTORY_SIZE ∧
    (add_history (record_all lines) l).count ≤ HISTORY_SIZE ∧
    ((record_all lines).count < HISTORY_SIZE →
      (add_history (record_all lines) l).count = (record_all lines).count + 1) ∧
    ((record_all lines).count = HISTORY_SIZE →
      (add_history (record_all lines) l).count = HISTORY_SIZE ∧
      (add_history (record_all lines) l).commands.length = HISTORY_SIZE ∧
      ∀ i, i < HISTORY_SIZE →
        ∃ x ∈ lines ++ [l], (add_history (record_all lines) l).commands[i]? = some (some x)) := by
  have hstep : add_history (record_all lines) l = record_all (lines ++ [l]) := by
    simp [record_all, List.foldl_append]
  obtain ⟨hc, _⟩ := record_all_inv lines
  obtain ⟨hc', hs'⟩ := record_all_inv (lines ++ [l])
  have hlen : (lines ++ [l]).length = lines.length + 1 := by simp
  rw [hstep]
  refine ⟨by omega, by omega, fun h => by omega, fun h => ?_⟩
  have hN : HISTORY_SIZE ≤ lines.length := by omega
  have hm : min (lines ++ [l]).length HISTORY_SIZE = HISTORY_SIZE := by omega
  have hll : (last_lines (lines ++ [l])).length = HISTORY_SIZE := by
    rw [length_last_lines]; exact hm
  rw [hm, Nat.sub_self, List.replicate_zero, List.append_nil] at hs'
  refine ⟨by omega, by rw [hs', List.length_map, hll], ?_⟩
  intro i hi
  have hi' : i < (last_lines (lines ++ [l])).length := by omega
  refine ⟨(last_lines (lines ++ [l]))[i], ?_, ?_⟩
  · exact List.mem_of_mem_drop (List.getElem_mem hi')
  · rw [hs', List.getElem?_map, List.getElem?_eq_getElem hi']
    rfl

/-- C19 at a full history: a hundred lines recorded, then one more. -/
theorem add_history_keeps_count_bounded_witness :
    (add_history (record_all (List.replicate 100 ['a'])) ['b']).count = HISTORY_SIZE ∧
    (add_history (record_all (List.replicate 100 ['a'])) ['b']).commands.length = HISTORY_SIZE ∧
    ∀ i, i < HISTORY_SIZE →
      ∃ x ∈ List.replicate 100 ['a'] ++ [['b']],
        (add_history (record_all (List.replicate 100 ['a'])) ['b']).commands[i]?
          = some (some x) :=
  (add_history_keeps_count_bounded (List.replicate 100 ['a']) ['b']).2.2.2
    ((record_all_inv _).1.trans (by decide))

/-- C20 (the code departs from the claim): on a line with `MAX_ARGS` or more
tokens `pass_command` fills all `MAX_ARGS` slots with tokens and stores the
final `NULL` at index `MAX_ARGS`, one past the end of the caller's array. -/
theorem pass_command_terminator_past_args (body rest : List Char)
    (hb : ∀ c ∈ body, c ≠ NUL ∧ c ≠ '\n') (hne : body ≠ [])
    (hlen : body.length < SIZE_MOD) (hamp : body.getLast? ≠ some '&')
    (hmany : MAX_ARGS ≤ (fields ' ' body).length) :
    ∃ r, pass_command (body ++ '\n' :: rest) = some r ∧
      r.argv = (fields ' ' body).take MAX_ARGS ∧
      r.index = MAX_ARGS ∧ ¬ (r.index < MAX_ARGS) := by
  obtain ⟨r, h1, _, h3, _⟩ := pass_command_body body rest '\n' (Or.inl rfl) hb hne hlen
  rw [if_neg hamp] at h3
  have hidx : r.index = MAX_ARGS := by
    have : r.index = r.argv.length := by simp [PassResult.index, PassResult.argv]
    rw [this, h3, List.length_take]
    omega
  exact ⟨r, h1, h3, hidx, by omega⟩

theorem length_spaced_replicate (t : List Char) (n : Nat) :
    (spaced (List.replicate (n + 1) t) []).length = n * (t.length + 1) + t.length := by
  induction n with
  | zero => simp [spaced]
  | succ n ih =>
    have : spaced (List.replicate (n + 1 + 1) t) []
        = t ++ List.replicate 1 ' ' ++ spaced (List.replicate (n + 1) t) [] := by
      simp [List.replicate_succ, spaced]
    rw [this, List.length_append, List.length_append, ih]
    simp
    ring

/-- C20 at the line made of a hundred tokens `a` separated by single
spaces, which fits the line buffer of `main`. -/
theorem pass_command_terminator_past_args_witness :
    (spaced (List.replicate 100 ['a']) [] ++ ['\n', NUL]).length ≤ MAX_CMD_LEN ∧
    ∃ r, pass_command (spaced (List.replicate 100 ['a']) [] ++ '\n' :: [NUL]) = some r ∧
      r.argv = (fields ' ' (spaced (List.replicate 100 ['a']) [])).take MAX_ARGS ∧
      r.index = MAX_ARGS ∧ ¬ (r.index < MAX_ARGS) :=
  have hf : fields ' ' (spaced (List.replicate 100 ['a']) []) = List.replicate 100 ['a'] := by
    have := fields_spaced (List.replicate 100 ['a']) [] []
      (fun t ht => by rw [(List.mem_replicate.1 ht).2]; decide) (by simp)
    rwa [List.append_nil] at this
  have hl : (spaced (List.replicate 100 ['a']) []).getLast? = some 'a' := by
    rw [spaced_getLast (List.replicate 100 ['a']) [] ['a']
      (fun t ht => by rw [(List.mem_replicate.1 ht).2]; decide) (by decide)]
    rfl
  have hlen : (spaced (List.replicate 100 ['a']) []).length = 199 :=
    length_spaced_replicate ['a'] 99
  ⟨by rw [List.length_append, hlen]; decide,
   pass_command_terminator_past_args (spaced (List.replicate 100 ['a']) []) [NUL]
    (fun c hc => by
      rcases mem_spaced _ _ c hc with h | ⟨t, ht, hct⟩
      · rw [h]; decide
      · rw [(List.mem_replicate.1 ht).2] at hct
        simp at hct
        rw [hct]; decide)
    (by intro h; rw [h] at hl; simp at hl)
    (by rw [hlen]; decide)
    (by rw [hl]; decide)
    (by rw [hf]; decide)⟩

end Shell
